import Mathlib

/-!
Verification of the page-classification core of the pdf-analyser repository
(`src/core/medical_detector.py`), as a shallow embedding in Lean.

Strings are modelled through their character lists.  External effects (file
system, OCR engine, image decoding, hashing) are parameters of the pipeline
definitions; everything that is code in `medical_detector.py` is translated
here.
-/

/-- Whitespace characters recognised by the `\s` class used in
`re.sub(r"\s+", " ", text)` (ASCII part). -/
def isWS (c : Char) : Bool :=
  c = ' ' || c = '\t' || c = '\n' || c = '\r' || c = '\x0b' || c = '\x0c'

/-- Structural worker for `collapseWS` (the fuel only forces structural
recursion; it is irrelevant once at least the list length). -/
def collapseFuel : Nat → List Char → List Char
  | _, [] => []
  | 0, l => l
  | fuel + 1, c :: cs =>
    if isWS c then ' ' :: collapseFuel fuel (cs.dropWhile isWS)
    else c :: collapseFuel fuel cs

/-- `re.sub(r"\s+", " ", text)`: every maximal whitespace run becomes one space. -/
def collapseWS (l : List Char) : List Char := collapseFuel l.length l

/-- Boolean test: the first list occurs at the head of the second. -/
def isPrefB : List Char → List Char → Bool
  | [], _ => true
  | _ :: _, [] => false
  | a :: as, b :: bs => a == b && isPrefB as bs

/-- Structural worker for `replaceAll`. -/
def replaceFuel (p0 : Char) (pt : List Char) (r : List Char) : Nat → List Char → List Char
  | _, [] => []
  | 0, l => l
  | fuel + 1, c :: cs =>
    if isPrefB (p0 :: pt) (c :: cs) then r ++ replaceFuel p0 pt r fuel (cs.drop pt.length)
    else c :: replaceFuel p0 pt r fuel cs

/-- Python `str.replace(pattern, repl)` for a non-empty pattern `p0 :: pt`:
replace all non-overlapping occurrences, scanning left to right. -/
def replaceAll (p0 : Char) (pt : List Char) (r : List Char) (l : List Char) : List Char :=
  replaceFuel p0 pt r l.length l

/-- The character-list body shared by `normalize_text` and `normalize_text_1`:
lower-case, collapse whitespace, then the four OCR spacing repairs, applied in
source order. -/
def normChars (l : List Char) : List Char :=
  replaceAll 't' " e m p".toList "temp".toList
    (replaceAll 's' " p o 2".toList "spo2".toList
      (replaceAll 'b' ".p.".toList "bp".toList
        (replaceAll 'b' " p".toList "bp".toList
          (collapseWS (l.map Char.toLower)))))

/-- `normalize_text` of the structured pipeline. -/
def normalize_text (s : String) : String := String.mk (normChars s.data)

/-- `normalize_text_1` of the unstructured pipeline (same body in the source). -/
def normalize_text_1 (s : String) : String := String.mk (normChars s.data)

/-- `clean_filename`: lower-case, spaces to underscores, keep `[a-z0-9_]`. -/
def clean_filename (text : String) : String :=
  String.mk (((text.data.map Char.toLower).map (fun c => if c = ' ' then '_' else c)).filter
    (fun c => ('a' ≤ c && c ≤ 'z') || ('0' ≤ c && c ≤ '9') || c = '_'))

/-- `clean_filename_1` (identical body in the source). -/
def clean_filename_1 (text : String) : String := clean_filename text

/-- Python's substring test `kw in text`. -/
def containsSub (text kw : String) : Bool :=
  text.data.tails.any (fun t => isPrefB kw.data t)

/-- `HEADER_CATEGORIES`, in registration order. -/
def HEADER_CATEGORIES : List (String × List String) :=
  [("patient_record", ["patient record file", "case record", "case sheet", "ipd file"]),
   ("assessment", ["initial assessment", "assessment sheet", "admission assessment"]),
   ("vitals_chart", ["treatment sheet", "vitals chart", "vital chart", "input output",
      "medicine chart", "master chart"]),
   ("investigation", ["investigation report", "lab report", "pathology report",
      "radiology report"]),
   ("plan_of_care", ["plan of care"])]

/-- `BODY_RULES`, in registration order. -/
def BODY_RULES : List (String × List String) :=
  [("assessment", ["diagnosis", "provisional", "final", "chief complaints",
      "history of present illness", "clinical findings"]),
   ("vitals_chart", ["bp", "pulse", "temp", "spo2", "intake", "output"]),
   ("investigation", ["impression", "finding", "observation", "result"])]

/-- Keyword score of a category: how many of its keywords occur in the text. -/
def scoreOf (kws : List String) (text : String) : Nat :=
  (kws.filter (fun kw => containsSub text kw)).length

/-- The `scores` dict built by `classify_header`: categories with positive
score, in registration order. -/
def candidates2 (text : String) : List (String × Nat) :=
  HEADER_CATEGORIES.filterMap (fun ck =>
    let s := scoreOf ck.2 text
    if 0 < s then some (ck.1, s) else none)

/-- The fold performed by Python's `max(scores, key=scores.get)`: keep the
current key unless a strictly larger score appears. -/
def maxKeyGo (c : String) (s : Nat) : List (String × Nat) → String
  | [] => c
  | q :: rest => if s < q.2 then maxKeyGo q.1 q.2 rest else maxKeyGo c s rest

/-- Python's `max(scores, key=scores.get)` over an insertion-ordered dict,
or `None` when the dict is empty. -/
def maxKey : List (String × Nat) → Option String
  | [] => none
  | q :: rest => some (maxKeyGo q.1 q.2 rest)

/-- `classify_header`. -/
def classify_header (text : String) : Option String := maxKey (candidates2 text)

/-- `is_header_weak`: empty text, or fewer than 10 characters `a`-`z` remain
after `re.sub(r'[^a-z]', '', header_text)`. -/
def is_header_weak (header_text : String) : Bool :=
  if header_text.data.isEmpty then true
  else (header_text.data.filter (fun c => 'a' ≤ c && c ≤ 'z')).length < 10

/-- `refine_with_body`. -/
def refine_with_body (header_class : Option String) (body_text : String) : Option String :=
  match header_class with
  | none => none
  | some hc =>
    match BODY_RULES.lookup hc with
    | none => some hc
    | some kws => if 2 ≤ scoreOf kws body_text then some hc else some (hc ++ "_uncertain")

/-- The footer-fallback step of `detect_medical_pages_2` (source lines 242-251),
on already-normalized header and footer text. -/
def footerFallback (header_text footer_text : String) : Option String :=
  let header_class := classify_header header_text
  if header_class.isNone || is_header_weak header_text then
    match classify_header footer_text with
    | some fc => some fc
    | none => header_class
  else header_class

/-- An entry of the unstructured taxonomy. -/
structure Cat1 where
  keywords : List String
  min_score : Nat
deriving DecidableEq

/-- `MEDICAL_CATEGORIES_1`, in registration order. -/
def MEDICAL_CATEGORIES_1 : List (String × Cat1) :=
  [("initial_assessment_1", ⟨["patient record file", "initial assessment", "history sheet",
      "assessment form", "assessment", "patient record", "admission history",
      "physical examination"], 1⟩),
   ("initial assessment_2", ⟨["complaint", "examination", "diagnosis"], 2⟩),
   ("investigation_report_1", ⟨["report", "laboratory investigation report",
      "investigation report", "operation notes", "progress notes",
      "clinical progress notes", "pathology report", "progress sheet"], 1⟩),
   ("investigation_report_2", ⟨["observations", "impressions", "advice", "indication",
      "finding"], 2⟩),
   ("drug_vital_chart_1", ⟨["medicine chart", "master chart", "treatment sheet",
      "medication chart", "vital chart", "vitals", "vitals input and output chart"], 1⟩),
   ("drug_vital_chart_2", ⟨["bp", "pulse", "temp", "medicine", "dosage"], 2⟩),
   ("treatment_plan", ⟨["plan of care", "management plan"], 1⟩)]

/-- `'0' ≤ c ≤ '9'`, the `\d` class. -/
def isDigitC (c : Char) : Bool := '0' ≤ c && c ≤ '9'

/-- Case-insensitive literal match at the head of a list (the literal is given
lower-case, as in the `re.I` patterns). -/
def ciPref : List Char → List Char → Bool
  | [], _ => true
  | _ :: _, [] => false
  | a :: as, b :: bs => a == Char.toLower b && ciPref as bs

/-- Two leading digits, returning the remainder. -/
def dg2 : List Char → Option (List Char)
  | a :: b :: rest => if isDigitC a && isDigitC b then some rest else none
  | _ => none

/-- Three leading digits, returning the remainder. -/
def dg3 : List Char → Option (List Char)
  | a :: b :: c :: rest => if isDigitC a && isDigitC b && isDigitC c then some rest else none
  | _ => none

/-- `/` followed by at least two digits (the final `\d{2,3}` of the blood
pressure alternative needs two digits to match). -/
def slashThenDigits : List Char → Bool
  | '/' :: rest => (dg2 rest).isSome
  | _ => false

/-- The `bp\s*\d{2,3}\/\d{2,3}` alternative of `VITAL_REGEX_1`, anchored at the
head of the list. -/
def bpAt (cs : List Char) : Bool :=
  ciPref ['b', 'p'] cs &&
    (let t := (cs.drop 2).dropWhile isWS
     (match dg2 t with | some r => slashThenDigits r | none => false) ||
     (match dg3 t with | some r => slashThenDigits r | none => false))

/-- A `lit\s*\d{2,3}` alternative of `VITAL_REGEX_1`, anchored at the head. -/
def numAfter (lit : List Char) (cs : List Char) : Bool :=
  ciPref lit cs && (dg2 ((cs.drop lit.length).dropWhile isWS)).isSome

/-- One alternative of `VITAL_REGEX_1` matches at the head of the list. -/
def vitalAt (cs : List Char) : Bool :=
  bpAt cs || numAfter "spo2".toList cs || numAfter "pulse".toList cs ||
    numAfter "temp".toList cs || ciPref "dosage".toList cs

/-- `VITAL_REGEX_1.search(text)`: some alternative matches somewhere. -/
def vitalSearch (text : String) : Bool := text.data.tails.any vitalAt

/-- The `scores` dict built by `classify_text_1`: keyword score, plus the +2
regex boost for `drug_vital_chart_1`, kept when it reaches the category's own
threshold; in registration order. -/
def candidates1 (text : String) : List (String × Nat) :=
  MEDICAL_CATEGORIES_1.filterMap (fun cd =>
    let s0 := scoreOf cd.2.keywords text
    let s := if cd.1 == "drug_vital_chart_1" && vitalSearch text then s0 + 2 else s0
    if cd.2.min_score ≤ s then some (cd.1, s) else none)

/-- `classify_text_1`. -/
def classify_text_1 (text : String) : Option String := maxKey (candidates1 text)

/-- Specification-side selection: the first entry whose score is maximal. -/
def firstMaxSpec (l : List (String × Nat)) : Option String :=
  (l.find? (fun p => l.all (fun q => q.2 ≤ p.2))).map (fun p => p.1)

/-- Lexicographic (code-point) order on character lists: Python's `<=` on
strings, as used by `sorted`. -/
def lexLe : List Char → List Char → Bool
  | [], _ => true
  | _ :: _, [] => false
  | a :: as, b :: bs => if a = b then lexLe as bs else decide (a < b)

/-- A page-image file of the input directory: its name and raw bytes. -/
structure PageFile where
  name : String
  content : List Nat
deriving DecidableEq

/-- `sorted` comparison on listing entries (by filename). -/
def nameLe (f g : PageFile) : Bool := lexLe f.name.data g.name.data

/-- Insert into a sorted listing. -/
def insertSorted (x : PageFile) : List PageFile → List PageFile
  | [] => [x]
  | y :: ys => if nameLe x y then x :: y :: ys else y :: insertSorted x ys

/-- `sorted(os.listdir(image_dir))`: sort the directory listing by filename. -/
def sortFiles : List PageFile → List PageFile
  | [] => []
  | x :: xs => insertSorted x (sortFiles xs)

/-- The environment of external effects a pipeline run interacts with:
content hashing (`hashlib.md5`), image decoding (`cv2.imread`), the raw
OCR text of each region (`pytesseract` on the header/footer/body slice or
the full page), and the noise heuristic `is_scanned_page`. -/
structure Env (Img : Type) where
  hash : List Nat → String
  decode : List Nat → Option Img
  rawHeader : Img → String
  rawFooter : Img → String
  rawBody : Img → String
  rawFull : Img → String
  isScanned : Img → Bool

/-- Observable behaviour of one pipeline run: pages that were OCR'd and
classified (`visited`, in processing order), the destination names written by
`shutil.copy`, the fractions passed to the progress callback, the final
contents of the output directory, and the returned `found` list (`none` when
an exception from the callback aborted the run). -/
structure Trace where
  visited : List PageFile
  copies : List String
  calls : List ℚ
  outFiles : List String
  found : Option (List String)

/-- `shutil.copy` into the output directory: overwriting an existing name
leaves the directory contents unchanged. -/
def copyInsert (outDir : List String) (dst : String) : List String :=
  if dst ∈ outDir then outDir else outDir ++ [dst]

/-- The stem `os.path.splitext(img_name)[0]`: everything before the last dot,
unless only dots precede it. -/
def stemOf (name : String) : String :=
  let rs := name.data.reverse
  if rs.contains '.' then
    let ext := rs.takeWhile (fun c => c != '.')
    let stemRev := rs.drop (ext.length + 1)
    if stemRev.all (fun c => c == '.') then name
    else String.mk stemRev.reverse
  else name

/-- The header/footer/body/full-page classification chain run on one decoded
page by `detect_medical_pages_2` (source lines 238-261). -/
def pageCategory2 {Img : Type} (env : Env Img) (img : Img) : Option String :=
  let header_text := normalize_text (env.rawHeader img)
  let header_class := footerFallback header_text (normalize_text (env.rawFooter img))
  let body_text := normalize_text (env.rawBody img)
  match refine_with_body header_class body_text with
  | some c => some c
  | none =>
    let full_text := normalize_text (env.rawFull img)
    refine_with_body (classify_header full_text) full_text

/-- The per-page loop of `detect_medical_pages_2`: hash-dedup check, decode,
classify, copy, then progress callback; `continue` skips the callback. -/
def det2Loop {Img : Type} (env : Env Img) (cb : ℚ → Bool) (total : Nat) :
    Nat → List String → List String → List PageFile → Trace
  | _, _, outDir, [] => ⟨[], [], [], outDir, some []⟩
  | i, processed, outDir, f :: rest =>
    let h := env.hash f.content
    if h ∈ processed then det2Loop env cb total (i + 1) processed outDir rest
    else
      match env.decode f.content with
      | none => det2Loop env cb total (i + 1) (h :: processed) outDir rest
      | some img =>
        let dstO : Option String :=
          (pageCategory2 env img).map (fun c => stemOf f.name ++ "_" ++ clean_filename c ++ ".png")
        let outDir2 := match dstO with | some dst => copyInsert outDir dst | none => outDir
        let cop := dstO.toList
        let frac : ℚ := ((i : ℚ) + 1) / (total : ℚ)
        if cb frac then
          let t := det2Loop env cb total (i + 1) (h :: processed) outDir2 rest
          ⟨f :: t.visited, cop ++ t.copies, frac :: t.calls, t.outFiles,
            t.found.map (fun fd => cop ++ fd)⟩
        else ⟨[f], cop, [frac], outDir2, none⟩

/-- `detect_medical_pages_2`.  `outInit` is the pre-existing content of the
output directory; the clean-old-outputs loop removes it all before the page
loop starts, so the loop begins on an empty directory. -/
def detect_medical_pages_2 {Img : Type} (env : Env Img) (cb : ℚ → Bool)
    (files : List PageFile) (outInit : List String) : Trace :=
  let images := sortFiles files
  det2Loop env cb images.length 0 [] [] images

/-- The numeric-suffix probe of `detect_medical_pages_1`'s `while
os.path.exists(dst_path)` loop (fuel bounds the search; with fuel
`outDir.length + 1` a free name is always reached). -/
def freshNameAux (base : String) (outDir : List String) : Nat → Nat → String
  | 0, k => base ++ "_" ++ toString k ++ ".png"
  | fuel + 1, k =>
    let cand := base ++ "_" ++ toString k ++ ".png"
    if cand ∈ outDir then freshNameAux base outDir fuel (k + 1) else cand

/-- Destination name chosen by `detect_medical_pages_1`: `<base>.png`, or the
first free `<base>_<counter>.png`. -/
def freshName (base : String) (outDir : List String) : String :=
  let cand0 := base ++ ".png"
  if cand0 ∈ outDir then freshNameAux base outDir (outDir.length + 1) 1 else cand0

/-- The per-page loop of `detect_medical_pages_1`: decode, OCR the full page,
classify, copy under a collision-free name, then progress callback; no
dedup check and no clearing of the output directory. -/
def det1Loop {Img : Type} (env : Env Img) (cb : ℚ → Bool) (total : Nat) :
    Nat → List String → List PageFile → Trace
  | _, outDir, [] => ⟨[], [], [], outDir, some []⟩
  | i, outDir, f :: rest =>
    match env.decode f.content with
    | none => det1Loop env cb total (i + 1) outDir rest
    | some img =>
      let text := normalize_text_1 (env.rawFull img)
      let dstO : Option String :=
        (classify_text_1 text).map (fun c => freshName (clean_filename_1 c) outDir)
      let outDir2 := match dstO with | some dst => copyInsert outDir dst | none => outDir
      let cop := dstO.toList
      let frac : ℚ := ((i : ℚ) + 1) / (total : ℚ)
      if cb frac then
        let t := det1Loop env cb total (i + 1) outDir2 rest
        ⟨f :: t.visited, cop ++ t.copies, frac :: t.calls, t.outFiles,
          t.found.map (fun fd => cop ++ fd)⟩
      else ⟨[f], cop, [frac], outDir2, none⟩

/-- `detect_medical_pages_1`: `os.makedirs(..., exist_ok=True)` keeps the
pre-existing output directory contents, so the loop starts on `outInit`. -/
def detect_medical_pages_1 {Img : Type} (env : Env Img) (cb : ℚ → Bool)
    (files : List PageFile) (outInit : List String) : Trace :=
  let images := sortFiles files
  det1Loop env cb images.length 0 outInit images

/-- The decision image: first page of the given prefix of the sorted listing
that `cv2.imread` can decode. -/
def firstDecodable {Img : Type} (env : Env Img) : List PageFile → Option Img
  | [] => none
  | f :: rest =>
    match env.decode f.content with
    | some img => some img
    | none => firstDecodable env rest

/-- `detect_medical_pages`: decide the document type on the first decodable
page among the first three of the sorted listing, then dispatch. -/
def detect_medical_pages {Img : Type} (env : Env Img) (cb : ℚ → Bool)
    (files : List PageFile) (outInit : List String) : Trace :=
  let images := sortFiles files
  match firstDecodable env (images.take 3) with
  | none => ⟨[], [], [], outInit, some []⟩
  | some img =>
    if env.isScanned img then detect_medical_pages_1 env cb files outInit
    else detect_medical_pages_2 env cb files outInit

/-- First list is a prefix of the second. -/
def pfxP {α : Type} (p l : List α) : Prop := ∃ t, p ++ t = l

/-- First list is a suffix of the second. -/
def sfxP {α : Type} (s l : List α) : Prop := ∃ u, u ++ s = l

/-- First list occurs contiguously inside the second. -/
def subP {α : Type} (q l : List α) : Prop := ∃ u v, u ++ (q ++ v) = l

/-- Every whitespace character is a plain space. -/
def spacesOnly (l : List Char) : Prop := ∀ c ∈ l, isWS c = true → c = ' '

/-- Every character is fixed by `Char.toLower`. -/
def lowerStable (l : List Char) : Prop := ∀ c ∈ l, Char.toLower c = c

/-- Whitespace-normal form: only plain spaces, never two in a row. -/
def wsNormal (l : List Char) : Prop := spacesOnly l ∧ ¬ subP [' ', ' '] l

/-- A content hash usable in concrete runs (distinct on the byte lists used
in the examples below). -/
def byteHash (c : List Nat) : String := String.mk (c.map (fun n => Char.ofNat (97 + n % 26)))

/-- Concrete environment: every image decodes, every region OCRs to the given
full-page text, and the heuristic reports "digital". -/
def simpleEnv (t : String) : Env Unit :=
  ⟨byteHash, fun _ => some (), fun _ => "", fun _ => "", fun _ => "", fun _ => t, fun _ => false⟩

/-- Concrete environment where the image *is* its byte list, bytes `[1]` fail
to decode, and the scanned heuristic fires exactly on bytes `[10]`. -/
def listEnv : Env (List Nat) :=
  ⟨byteHash, fun c => if c = [1] then none else some c,
   fun _ => "", fun _ => "", fun _ => "", fun _ => "", fun c => decide (c = [10])⟩

/-- Ten pages named `page_1.png` … `page_10.png`, bytes `[n]` for page `n`. -/
def files10 : List PageFile :=
  [⟨"page_1.png", [1]⟩, ⟨"page_2.png", [2]⟩, ⟨"page_3.png", [3]⟩, ⟨"page_4.png", [4]⟩,
   ⟨"page_5.png", [5]⟩, ⟨"page_6.png", [6]⟩, ⟨"page_7.png", [7]⟩, ⟨"page_8.png", [8]⟩,
   ⟨"page_9.png", [9]⟩, ⟨"page_10.png", [10]⟩]

/-! ### Unfolding the fuel-based string workers -/

theorem collapseFuel_congr : ∀ (f1 f2 : Nat) (l : List Char), l.length ≤ f1 → l.length ≤ f2 →
    collapseFuel f1 l = collapseFuel f2 l
  | _, _, [], _, _ => by simp [collapseFuel]
  | f1 + 1, f2 + 1, c :: cs, h1, h2 => by
    simp only [List.length_cons, Nat.add_le_add_iff_right] at h1 h2
    simp only [collapseFuel]
    by_cases hw : isWS c = true
    · rw [if_pos hw, if_pos hw]
      exact congrArg _ (collapseFuel_congr f1 f2 _
        (le_trans (List.dropWhile_suffix isWS).length_le h1)
        (le_trans (List.dropWhile_suffix isWS).length_le h2))
    · rw [if_neg hw, if_neg hw]
      exact congrArg _ (collapseFuel_congr f1 f2 cs h1 h2)
  | 0, _, c :: cs, h1, _ => by simp at h1
  | _ + 1, 0, c :: cs, _, h2 => by simp at h2

theorem collapseWS_nil : collapseWS [] = [] := rfl

theorem collapseWS_cons (c : Char) (cs : List Char) :
    collapseWS (c :: cs) =
      if isWS c then ' ' :: collapseWS (cs.dropWhile isWS) else c :: collapseWS cs := by
  unfold collapseWS
  simp only [List.length_cons, collapseFuel]
  by_cases hw : isWS c = true
  · rw [if_pos hw, if_pos hw]
    exact congrArg _ (collapseFuel_congr _ _ _ (List.dropWhile_suffix isWS).length_le le_rfl)
  · rw [if_neg hw, if_neg hw]

theorem replaceFuel_congr (p0 : Char) (pt r : List Char) :
    ∀ (f1 f2 : Nat) (l : List Char), l.length ≤ f1 → l.length ≤ f2 →
    replaceFuel p0 pt r f1 l = replaceFuel p0 pt r f2 l
  | _, _, [], _, _ => by simp [replaceFuel]
  | f1 + 1, f2 + 1, c :: cs, h1, h2 => by
    simp only [List.length_cons, Nat.add_le_add_iff_right] at h1 h2
    simp only [replaceFuel]
    by_cases hm : isPrefB (p0 :: pt) (c :: cs) = true
    · rw [if_pos hm, if_pos hm]
      refine congrArg _ (replaceFuel_congr p0 pt r f1 f2 _ ?_ ?_)
      · exact le_trans (List.length_drop pt.length cs ▸ Nat.sub_le _ _) h1
      · exact le_trans (List.length_drop pt.length cs ▸ Nat.sub_le _ _) h2
    · rw [if_neg hm, if_neg hm]
      exact congrArg _ (replaceFuel_congr p0 pt r f1 f2 cs h1 h2)
  | 0, _, c :: cs, h1, _ => by simp at h1
  | _ + 1, 0, c :: cs, _, h2 => by simp at h2

theorem replaceAll_nil (p0 : Char) (pt r : List Char) : replaceAll p0 pt r [] = [] := rfl

theorem replaceAll_cons (p0 : Char) (pt r : List Char) (c : Char) (cs : List Char) :
    replaceAll p0 pt r (c :: cs) =
      if isPrefB (p0 :: pt) (c :: cs) then r ++ replaceAll p0 pt r (cs.drop pt.length)
      else c :: replaceAll p0 pt r cs := by
  unfold replaceAll
  simp only [List.length_cons, replaceFuel]
  by_cases hm : isPrefB (p0 :: pt) (c :: cs) = true
  · rw [if_pos hm, if_pos hm]
    refine congrArg _ (replaceFuel_congr p0 pt r _ _ _ ?_ le_rfl)
    exact List.length_drop pt.length cs ▸ Nat.sub_le _ _
  · rw [if_neg hm, if_neg hm]

/-! ### Prefix / suffix / substring toolbox -/

theorem pfxP_nil (l : List Char) : pfxP [] l := ⟨l, rfl⟩

theorem pfxP_nil_right {t : List Char} (h : pfxP t []) : t = [] := by
  obtain ⟨u, hu⟩ := h
  exact List.append_eq_nil.mp hu |>.1

theorem pfxP_cons_iff {a b : Char} {t l : List Char} :
    pfxP (a :: t) (b :: l) ↔ a = b ∧ pfxP t l := by
  constructor
  · rintro ⟨u, hu⟩
    injection hu with h1 h2
    exact ⟨h1, u, h2⟩
  · rintro ⟨rfl, u, hu⟩
    exact ⟨u, by rw [List.cons_append, hu]⟩

theorem isPrefB_iff : ∀ (p l : List Char), isPrefB p l = true ↔ pfxP p l
  | [], l => by simp [isPrefB, pfxP_nil]
  | a :: as, [] => by
    constructor
    · intro h
      simp [isPrefB] at h
    · intro h
      exact absurd (pfxP_nil_right h) (by simp)
  | a :: as, b :: bs => by
    simp only [isPrefB, Bool.and_eq_true, beq_iff_eq, pfxP_cons_iff]
    exact and_congr Iff.rfl (isPrefB_iff as bs)

theorem isPrefB_self_append (q x : List Char) : isPrefB q (q ++ x) = true :=
  (isPrefB_iff q (q ++ x)).mpr ⟨x, rfl⟩

theorem subP_nil_iff {q : List Char} : subP q [] ↔ q = [] := by
  constructor
  · rintro ⟨u, v, huv⟩
    rcases List.append_eq_nil.mp huv with ⟨-, h2⟩
    exact (List.append_eq_nil.mp h2).1
  · rintro rfl
    exact ⟨[], [], rfl⟩

theorem pfxP_subP {q l : List Char} (h : pfxP q l) : subP q l := by
  obtain ⟨t, ht⟩ := h
  exact ⟨[], t, ht⟩

theorem subP_cons {q l : List Char} (c : Char) (h : subP q l) : subP q (c :: l) := by
  obtain ⟨u, v, huv⟩ := h
  exact ⟨c :: u, v, by rw [List.cons_append, huv]⟩

theorem subP_cons_elim {q l : List Char} {c : Char} (h : subP q (c :: l)) :
    pfxP q (c :: l) ∨ subP q l := by
  obtain ⟨u, v, huv⟩ := h
  cases u with
  | nil => exact Or.inl ⟨v, huv⟩
  | cons d u2 =>
    injection huv with h1 h2
    exact Or.inr ⟨u2, v, h2⟩

theorem sfxP_trans_subP {q m l : List Char} (hm : sfxP m l) (h : subP q m) : subP q l := by
  obtain ⟨u0, hu0⟩ := hm
  obtain ⟨u, v, huv⟩ := h
  exact ⟨u0 ++ u, v, by rw [List.append_assoc, huv, hu0]⟩

theorem subP_drop {q l : List Char} (n : Nat) (h : subP q (l.drop n)) : subP q l :=
  sfxP_trans_subP ⟨l.take n, List.take_append_drop n l⟩ h

theorem sfxP_iff_mem_tails {s l : List Char} : sfxP s l ↔ s ∈ l.tails := by
  rw [List.mem_tails]
  exact Iff.rfl

theorem pfxP_append_elim : ∀ (A : List Char) {q B : List Char}, pfxP q (A ++ B) →
    pfxP q A ∨ ∃ t, q = A ++ t ∧ pfxP t B
  | [], q, B, h => Or.inr ⟨q, rfl, h⟩
  | x :: A2, q, B, h => by
    cases q with
    | nil => exact Or.inl (pfxP_nil _)
    | cons a q2 =>
      rw [List.cons_append] at h
      rw [pfxP_cons_iff] at h
      obtain ⟨rfl, h2⟩ := h
      rcases pfxP_append_elim A2 h2 with h3 | ⟨t, rfl, ht⟩
      · exact Or.inl (pfxP_cons_iff.mpr ⟨rfl, h3⟩)
      · exact Or.inr ⟨t, by rw [List.cons_append], ht⟩

theorem subP_append_elim : ∀ (A : List Char) {q B : List Char}, subP q (A ++ B) →
    subP q A ∨ subP q B ∨
      ∃ s t, s ++ t = q ∧ s ≠ [] ∧ t ≠ [] ∧ sfxP s A ∧ pfxP t B
  | [], q, B, h => Or.inr (Or.inl h)
  | x :: A2, q, B, h => by
    rw [List.cons_append] at h
    rcases subP_cons_elim h with hp | hs
    · rw [← List.cons_append] at hp
      rcases pfxP_append_elim (x :: A2) hp with h1 | ⟨t, rfl, ht⟩
      · exact Or.inl (pfxP_subP h1)
      · cases t with
        | nil => exact Or.inl ⟨[], [], by simp⟩
        | cons e t2 =>
          exact Or.inr (Or.inr ⟨x :: A2, e :: t2, rfl, by simp, by simp, ⟨[], rfl⟩, ht⟩)
    · rcases subP_append_elim A2 hs with h1 | h2 | ⟨s, t, hq, hs0, ht0, ⟨u, hu⟩, ht⟩
      · exact Or.inl (subP_cons x h1)
      · exact Or.inr (Or.inl h2)
      · exact Or.inr (Or.inr ⟨s, t, hq, hs0, ht0, ⟨x :: u, by rw [List.cons_append, hu]⟩, ht⟩)

/-! ### Replacement: identity and absence of the pattern -/

theorem replaceAll_id (p0 : Char) (pt r : List Char) :
    ∀ l, ¬ subP (p0 :: pt) l → replaceAll p0 pt r l = l
  | [], _ => replaceAll_nil p0 pt r
  | c :: cs, h => by
    rw [replaceAll_cons]
    have hm : isPrefB (p0 :: pt) (c :: cs) = false := by
      cases hmm : isPrefB (p0 :: pt) (c :: cs)
      · rfl
      · exact absurd (pfxP_subP ((isPrefB_iff _ _).mp hmm)) h
    rw [if_neg (by rw [hm]; exact Bool.false_ne_true)]
    exact congrArg _ (replaceAll_id p0 pt r cs (fun hs => h (subP_cons c hs)))

theorem pfxReflect (p0 : Char) (pt rt : List Char) (r0 : Char) :
    ∀ (l t : List Char), (∀ c ∈ t, c ≠ r0) →
      pfxP t (replaceAll p0 pt (r0 :: rt) l) → pfxP t l
  | [], t, h1, hp => by
    rw [replaceAll_nil] at hp
    rw [pfxP_nil_right hp]
    exact pfxP_nil _
  | c :: cs, t, h1, hp => by
    rw [replaceAll_cons] at hp
    by_cases hm : isPrefB (p0 :: pt) (c :: cs) = true
    · rw [if_pos hm] at hp
      cases t with
      | nil => exact pfxP_nil _
      | cons a ts =>
        rw [List.cons_append, pfxP_cons_iff] at hp
        exact absurd hp.1 (h1 a (by simp))
    · rw [if_neg hm] at hp
      cases t with
      | nil => exact pfxP_nil _
      | cons a ts =>
        rw [pfxP_cons_iff] at hp
        obtain ⟨rfl, hp2⟩ := hp
        have hrec := pfxReflect p0 pt rt r0 cs ts (fun d hd => h1 d (by simp [hd])) hp2
        exact pfxP_cons_iff.mpr ⟨rfl, hrec⟩

theorem selfAbsent (p0 : Char) (pt : List Char) (r0 : Char) (rt : List Char)
    (h1 : ∀ c ∈ pt, c ≠ r0)
    (h2 : ∀ s ∈ (r0 :: rt).tails, isPrefB (p0 :: pt) s = false)
    (h3 : ∀ s ∈ (r0 :: rt).tails, s ≠ [] → isPrefB s (p0 :: pt) = false) :
    ∀ l, ¬ subP (p0 :: pt) (replaceAll p0 pt (r0 :: rt) l)
  | [] => by
    rw [replaceAll_nil]
    intro h
    exact absurd (subP_nil_iff.mp h) (by simp)
  | c :: cs => by
    rw [replaceAll_cons]
    by_cases hm : isPrefB (p0 :: pt) (c :: cs) = true
    · rw [if_pos hm]
      intro hsub
      rcases subP_append_elim (r0 :: rt) hsub with hA | hB | ⟨s, t, hst, hs0, ht0, hsfx, hpfx⟩
      · obtain ⟨u, v, huv⟩ := hA
        have hsf : sfxP ((p0 :: pt) ++ v) (r0 :: rt) := ⟨u, huv⟩
        have hfalse := h2 _ (sfxP_iff_mem_tails.mp hsf)
        rw [isPrefB_self_append] at hfalse
        exact Bool.noConfusion hfalse
      · exact selfAbsent p0 pt r0 rt h1 h2 h3 (cs.drop pt.length) hB
      · have hfalse := h3 s (sfxP_iff_mem_tails.mp hsfx) hs0
        have htrue : isPrefB s (p0 :: pt) = true := (isPrefB_iff _ _).mpr ⟨t, hst⟩
        rw [htrue] at hfalse
        exact Bool.noConfusion hfalse
    · rw [if_neg hm]
      intro hsub
      rcases subP_cons_elim hsub with hp | hs
      · rw [pfxP_cons_iff] at hp
        obtain ⟨hq0, hp2⟩ := hp
        have hr := pfxReflect p0 pt rt r0 cs pt h1 hp2
        exact hm ((isPrefB_iff _ _).mpr (pfxP_cons_iff.mpr ⟨hq0, hr⟩))
      · exact selfAbsent p0 pt r0 rt h1 h2 h3 cs hs
termination_by l => l.length
decreasing_by
  · simp only [List.length_cons]
    exact Nat.lt_succ_of_le (List.length_drop _ _ ▸ Nat.sub_le _ _)
  · simp

theorem subAbsent (p0 : Char) (pt : List Char) (r0 : Char) (rt : List Char) (q0 : Char) (qt : List Char)
    (h1 : ∀ c ∈ qt, c ≠ r0)
    (h2 : ∀ s ∈ (r0 :: rt).tails, isPrefB (q0 :: qt) s = false)
    (h3 : ∀ s ∈ (r0 :: rt).tails, s ≠ [] → isPrefB s (q0 :: qt) = false) :
    ∀ l, ¬ subP (q0 :: qt) l → ¬ subP (q0 :: qt) (replaceAll p0 pt (r0 :: rt) l)
  | [], hq => by
    rw [replaceAll_nil]
    exact hq
  | c :: cs, hq => by
    rw [replaceAll_cons]
    by_cases hm : isPrefB (p0 :: pt) (c :: cs) = true
    · rw [if_pos hm]
      intro hsub
      rcases subP_append_elim (r0 :: rt) hsub with hA | hB | ⟨s, t, hst, hs0, ht0, hsfx, hpfx⟩
      · obtain ⟨u, v, huv⟩ := hA
        have hsf : sfxP ((q0 :: qt) ++ v) (r0 :: rt) := ⟨u, huv⟩
        have hfalse := h2 _ (sfxP_iff_mem_tails.mp hsf)
        rw [isPrefB_self_append] at hfalse
        exact Bool.noConfusion hfalse
      · have hq2 : ¬ subP (q0 :: qt) (cs.drop pt.length) :=
          fun hs => hq (subP_cons c (subP_drop pt.length hs))
        exact subAbsent p0 pt r0 rt q0 qt h1 h2 h3 (cs.drop pt.length) hq2 hB
      · have hfalse := h3 s (sfxP_iff_mem_tails.mp hsfx) hs0
        have htrue : isPrefB s (q0 :: qt) = true := (isPrefB_iff _ _).mpr ⟨t, hst⟩
        rw [htrue] at hfalse
        exact Bool.noConfusion hfalse
    · rw [if_neg hm]
      intro hsub
      rcases subP_cons_elim hsub with hp | hs
      · rw [pfxP_cons_iff] at hp
        obtain ⟨hq0, hp2⟩ := hp
        have hr := pfxReflect p0 pt rt r0 cs qt h1 hp2
        exact hq (pfxP_subP (pfxP_cons_iff.mpr ⟨hq0, hr⟩))
      · exact subAbsent p0 pt r0 rt q0 qt h1 h2 h3 cs (fun hx => hq (subP_cons c hx)) hs
termination_by l _hq => l.length
decreasing_by
  · simp only [List.length_cons]
    exact Nat.lt_succ_of_le (List.length_drop _ _ ▸ Nat.sub_le _ _)
  · simp

/-! ### Whitespace collapsing: output shape and identity on normal forms -/

theorem dropWhile_head_not (p : Char → Bool) :
    ∀ (l : List Char) {e : Char}, (l.dropWhile p).head? = some e → p e = false
  | [], e, h => by simp [List.dropWhile] at h
  | c :: cs, e, h => by
    rw [List.dropWhile_cons] at h
    by_cases hp : p c = true
    · rw [if_pos hp] at h
      exact dropWhile_head_not p cs h
    · rw [if_neg hp] at h
      rw [List.head?_cons] at h
      injection h with h2
      rw [← h2]
      exact Bool.not_eq_true _ |>.mp hp

theorem collapseWS_spacesOnly : ∀ l, spacesOnly (collapseWS l)
  | [] => by
    rw [collapseWS_nil]
    intro c hc
    simp at hc
  | b :: cs => by
    rw [collapseWS_cons]
    by_cases hw : isWS b = true
    · rw [if_pos hw]
      intro d hd hwd
      rcases List.mem_cons.mp hd with rfl | hd2
      · rfl
      · exact collapseWS_spacesOnly (cs.dropWhile isWS) d hd2 hwd
    · rw [if_neg hw]
      intro d hd hwd
      rcases List.mem_cons.mp hd with rfl | hd2
      · exact absurd hwd hw
      · exact collapseWS_spacesOnly cs d hd2 hwd
termination_by l => l.length
decreasing_by
  · simp only [List.length_cons]
    exact Nat.lt_succ_of_le (List.dropWhile_suffix isWS).length_le
  · simp

theorem collapseWS_noDouble : ∀ l, ¬ subP [' ', ' '] (collapseWS l)
  | [] => by
    rw [collapseWS_nil]
    intro h
    exact absurd (subP_nil_iff.mp h) (by simp)
  | b :: cs => by
    rw [collapseWS_cons]
    by_cases hw : isWS b = true
    · rw [if_pos hw]
      intro hsub
      rcases subP_cons_elim hsub with hp | hs
      · rw [pfxP_cons_iff] at hp
        obtain ⟨-, t, ht⟩ := hp
        cases hd : cs.dropWhile isWS with
        | nil =>
          rw [hd, collapseWS_nil] at ht
          exact List.cons_ne_nil _ _ ht
        | cons e es =>
          have he : isWS e = false := dropWhile_head_not isWS cs (by rw [hd]; rfl)
          rw [hd, collapseWS_cons, if_neg (by rw [he]; exact Bool.false_ne_true)] at ht
          rw [List.singleton_append] at ht
          injection ht with h1 h2
          rw [← h1] at he
          simp [isWS] at he
      · exact collapseWS_noDouble (cs.dropWhile isWS) hs
    · rw [if_neg hw]
      intro hsub
      rcases subP_cons_elim hsub with hp | hs
      · rw [pfxP_cons_iff] at hp
        rw [← hp.1] at hw
        simp [isWS] at hw
      · exact collapseWS_noDouble cs hs
termination_by l => l.length
decreasing_by
  · simp only [List.length_cons]
    exact Nat.lt_succ_of_le (List.dropWhile_suffix isWS).length_le
  · simp

theorem collapseWS_id : ∀ l, wsNormal l → collapseWS l = l
  | [], _ => collapseWS_nil
  | c :: cs, ⟨hso, hnd⟩ => by
    rw [collapseWS_cons]
    by_cases hw : isWS c = true
    · rw [if_pos hw]
      have hc : c = ' ' := hso c (by simp) hw
      have hcs : cs.dropWhile isWS = cs := by
        cases cs with
        | nil => rfl
        | cons e es =>
          rw [List.dropWhile_cons]
          by_cases he : isWS e = true
          · exfalso
            apply hnd
            apply pfxP_subP
            rw [hc, hso e (by simp) he]
            exact ⟨es, rfl⟩
          · rw [if_neg he]
      rw [hcs, hc]
      exact congrArg _ (collapseWS_id cs
        ⟨fun d hd hdw => hso d (by simp [hd]) hdw, fun hsx => hnd (subP_cons c hsx)⟩)
    · rw [if_neg hw]
      exact congrArg _ (collapseWS_id cs
        ⟨fun d hd hdw => hso d (by simp [hd]) hdw, fun hsx => hnd (subP_cons c hsx)⟩)

/-! ### Character provenance, lower-case stability -/

theorem mem_collapseWS : ∀ l, ∀ c ∈ collapseWS l, c = ' ' ∨ c ∈ l
  | [] => by
    rw [collapseWS_nil]
    intro c hc
    simp at hc
  | b :: cs => by
    rw [collapseWS_cons]
    by_cases hw : isWS b = true
    · rw [if_pos hw]
      intro c hc
      rcases List.mem_cons.mp hc with rfl | h2
      · exact Or.inl rfl
      · rcases mem_collapseWS (cs.dropWhile isWS) c h2 with h | h
        · exact Or.inl h
        · exact Or.inr (List.mem_cons_of_mem b ((List.dropWhile_suffix isWS).sublist.subset h))
    · rw [if_neg hw]
      intro c hc
      rcases List.mem_cons.mp hc with rfl | h2
      · exact Or.inr (by simp)
      · rcases mem_collapseWS cs c h2 with h | h
        · exact Or.inl h
        · exact Or.inr (List.mem_cons_of_mem b h)
termination_by l => l.length
decreasing_by
  · simp only [List.length_cons]
    exact Nat.lt_succ_of_le (List.dropWhile_suffix isWS).length_le
  · simp

theorem mem_replaceAll (p0 : Char) (pt r : List Char) :
    ∀ l, ∀ c ∈ replaceAll p0 pt r l, c ∈ r ∨ c ∈ l
  | [] => by
    rw [replaceAll_nil]
    intro c hc
    simp at hc
  | b :: cs => by
    rw [replaceAll_cons]
    by_cases hm : isPrefB (p0 :: pt) (b :: cs) = true
    · rw [if_pos hm]
      intro c hc
      rcases List.mem_append.mp hc with h | h
      · exact Or.inl h
      · rcases mem_replaceAll p0 pt r (cs.drop pt.length) c h with h2 | h2
        · exact Or.inl h2
        · exact Or.inr (List.mem_cons_of_mem b (List.drop_subset _ cs h2))
    · rw [if_neg hm]
      intro c hc
      rcases List.mem_cons.mp hc with rfl | h2
      · exact Or.inr (by simp)
      · rcases mem_replaceAll p0 pt r cs c h2 with h | h
        · exact Or.inl h
        · exact Or.inr (List.mem_cons_of_mem b h)
termination_by l => l.length
decreasing_by
  · simp only [List.length_cons]
    exact Nat.lt_succ_of_le (List.length_drop _ _ ▸ Nat.sub_le _ _)
  · simp

theorem charOfNatValid (n : Nat) (h : n.isValidChar) : (Char.ofNat n).toNat = n := by
  simp [Char.ofNat, h, Char.ofNatAux, Char.toNat, UInt32.toNat, BitVec.toNat_ofNatLt]

theorem toLowerNat (c : Char) (h : 65 ≤ c.toNat ∧ c.toNat ≤ 90) :
    (Char.toLower c).toNat = c.toNat + 32 := by
  have hv : (c.toNat + 32).isValidChar := by
    left
    omega
  have heq : Char.toLower c = Char.ofNat (c.toNat + 32) := by
    simp only [Char.toLower]
    rw [if_pos]
    exact h
  rw [heq, charOfNatValid _ hv]

theorem toLowerNotUpper (c : Char) (h : ¬(65 ≤ c.toNat ∧ c.toNat ≤ 90)) :
    Char.toLower c = c := by
  simp only [Char.toLower]
  rw [if_neg h]

theorem toLowerIdem (c : Char) : Char.toLower (Char.toLower c) = Char.toLower c := by
  by_cases h : 65 ≤ c.toNat ∧ c.toNat ≤ 90
  · apply toLowerNotUpper
    rw [toLowerNat c h]
    omega
  · rw [toLowerNotUpper c h]
    exact toLowerNotUpper c h

theorem lowerStable_map (l : List Char) : lowerStable (l.map Char.toLower) := by
  intro c hc
  obtain ⟨a, -, rfl⟩ := List.mem_map.mp hc
  exact toLowerIdem a

theorem map_toLower_id {l : List Char} (h : lowerStable l) : l.map Char.toLower = l := by
  induction l with
  | nil => rfl
  | cons c cs ih =>
    rw [List.map_cons, h c (by simp), ih (fun d hd => h d (by simp [hd]))]

theorem lowerStable_collapseWS {l : List Char} (h : lowerStable l) :
    lowerStable (collapseWS l) := by
  intro c hc
  rcases mem_collapseWS l c hc with rfl | hm
  · decide
  · exact h c hm

theorem lowerStable_replaceAll (p0 : Char) (pt : List Char) {r l : List Char}
    (hr : lowerStable r) (hl : lowerStable l) : lowerStable (replaceAll p0 pt r l) := by
  intro c hc
  rcases mem_replaceAll p0 pt r l c hc with h | h
  · exact hr c h
  · exact hl c h

theorem spacesOnly_replaceAll (p0 : Char) (pt : List Char) {r l : List Char}
    (hr : ∀ c ∈ r, isWS c = false) (hl : spacesOnly l) : spacesOnly (replaceAll p0 pt r l) := by
  intro c hc hw
  rcases mem_replaceAll p0 pt r l c hc with h | h
  · rw [hr c h] at hw
    exact Bool.noConfusion hw
  · exact hl c h hw

/-! ### The normalized form is a fixed point of every normalization stage -/

theorem normChars_invariant (l : List Char) :
    lowerStable (normChars l) ∧ wsNormal (normChars l) ∧
    ¬ subP ('b' :: " p".toList) (normChars l) ∧
    ¬ subP ('b' :: ".p.".toList) (normChars l) ∧
    ¬ subP ('s' :: " p o 2".toList) (normChars l) ∧
    ¬ subP ('t' :: " e m p".toList) (normChars l) := by
  unfold normChars
  set w := collapseWS (l.map Char.toLower) with hwdef
  have hls0 : lowerStable w := by
    rw [hwdef]
    exact lowerStable_collapseWS (lowerStable_map l)
  have hso0 : spacesOnly w := by
    rw [hwdef]
    exact collapseWS_spacesOnly _
  have hnd0 : ¬ subP [' ', ' '] w := by
    rw [hwdef]
    exact collapseWS_noDouble _
  set y1 := replaceAll 'b' " p".toList "bp".toList w with h1def
  have hls1 : lowerStable y1 := lowerStable_replaceAll _ _ (by unfold lowerStable; decide) hls0
  have hso1 : spacesOnly y1 := spacesOnly_replaceAll _ _ (by decide) hso0
  have hnd1 : ¬ subP [' ', ' '] y1 :=
    subAbsent 'b' " p".toList 'b' ['p'] ' ' [' '] (by decide) (by decide) (by decide) w hnd0
  have hb1 : ¬ subP ('b' :: " p".toList) y1 :=
    selfAbsent 'b' " p".toList 'b' ['p'] (by decide) (by decide) (by decide) w
  set y2 := replaceAll 'b' ".p.".toList "bp".toList y1 with h2def
  have hls2 : lowerStable y2 := lowerStable_replaceAll _ _ (by unfold lowerStable; decide) hls1
  have hso2 : spacesOnly y2 := spacesOnly_replaceAll _ _ (by decide) hso1
  have hnd2 : ¬ subP [' ', ' '] y2 :=
    subAbsent 'b' ".p.".toList 'b' ['p'] ' ' [' '] (by decide) (by decide) (by decide) y1 hnd1
  have hb2 : ¬ subP ('b' :: " p".toList) y2 :=
    subAbsent 'b' ".p.".toList 'b' ['p'] 'b' " p".toList (by decide) (by decide) (by decide) y1 hb1
  have hbp2 : ¬ subP ('b' :: ".p.".toList) y2 :=
    selfAbsent 'b' ".p.".toList 'b' ['p'] (by decide) (by decide) (by decide) y1
  set y3 := replaceAll 's' " p o 2".toList "spo2".toList y2 with h3def
  have hls3 : lowerStable y3 := lowerStable_replaceAll _ _ (by unfold lowerStable; decide) hls2
  have hso3 : spacesOnly y3 := spacesOnly_replaceAll _ _ (by decide) hso2
  have hnd3 : ¬ subP [' ', ' '] y3 :=
    subAbsent 's' " p o 2".toList 's' "po2".toList ' ' [' ']
      (by decide) (by decide) (by decide) y2 hnd2
  have hb3 : ¬ subP ('b' :: " p".toList) y3 :=
    subAbsent 's' " p o 2".toList 's' "po2".toList 'b' " p".toList
      (by decide) (by decide) (by decide) y2 hb2
  have hbp3 : ¬ subP ('b' :: ".p.".toList) y3 :=
    subAbsent 's' " p o 2".toList 's' "po2".toList 'b' ".p.".toList
      (by decide) (by decide) (by decide) y2 hbp2
  have hsp3 : ¬ subP ('s' :: " p o 2".toList) y3 :=
    selfAbsent 's' " p o 2".toList 's' "po2".toList (by decide) (by decide) (by decide) y2
  refine ⟨lowerStable_replaceAll _ _ (by unfold lowerStable; decide) hls3,
    ⟨spacesOnly_replaceAll _ _ (by decide) hso3,
     subAbsent 't' " e m p".toList 't' "emp".toList ' ' [' ']
       (by decide) (by decide) (by decide) y3 hnd3⟩,
    subAbsent 't' " e m p".toList 't' "emp".toList 'b' " p".toList
      (by decide) (by decide) (by decide) y3 hb3,
    subAbsent 't' " e m p".toList 't' "emp".toList 'b' ".p.".toList
      (by decide) (by decide) (by decide) y3 hbp3,
    subAbsent 't' " e m p".toList 't' "emp".toList 's' " p o 2".toList
      (by decide) (by decide) (by decide) y3 hsp3,
    selfAbsent 't' " e m p".toList 't' "emp".toList (by decide) (by decide) (by decide) y3⟩

theorem normChars_idem (l : List Char) : normChars (normChars l) = normChars l := by
  obtain ⟨hls, ⟨hso, hnd⟩, hb1, hb2, hb3, hb4⟩ := normChars_invariant l
  show replaceAll 't' " e m p".toList "temp".toList
    (replaceAll 's' " p o 2".toList "spo2".toList
      (replaceAll 'b' ".p.".toList "bp".toList
        (replaceAll 'b' " p".toList "bp".toList
          (collapseWS ((normChars l).map Char.toLower))))) = normChars l
  rw [map_toLower_id hls, collapseWS_id (normChars l) ⟨hso, hnd⟩,
    replaceAll_id 'b' " p".toList "bp".toList (normChars l) hb1,
    replaceAll_id 'b' ".p.".toList "bp".toList (normChars l) hb2,
    replaceAll_id 's' " p o 2".toList "spo2".toList (normChars l) hb3,
    replaceAll_id 't' " e m p".toList "temp".toList (normChars l) hb4]

/-- Claim C8: text normalization is idempotent, for `normalize_text` and for
`normalize_text_1`. -/
theorem c8_normalize_idempotent (s : String) :
    normalize_text (normalize_text s) = normalize_text s ∧
    normalize_text_1 (normalize_text_1 s) = normalize_text_1 s :=
  ⟨congrArg String.mk (normChars_idem s.data), congrArg String.mk (normChars_idem s.data)⟩

/-! ### Python `max` over an insertion-ordered dict picks the first maximum -/

theorem find?_congr {α : Type} (p q : α → Bool) :
    ∀ l : List α, (∀ x ∈ l, p x = q x) → l.find? p = l.find? q
  | [], _ => rfl
  | x :: xs, h => by
    have hx := h x (by simp)
    cases hq : q x
    · rw [List.find?_cons_of_neg _ (by rw [hx, hq]; exact Bool.false_ne_true),
        List.find?_cons_of_neg _ (by rw [hq]; exact Bool.false_ne_true)]
      exact find?_congr p q xs (fun y hy => h y (by simp [hy]))
    · rw [List.find?_cons_of_pos _ (by rw [hx, hq]), List.find?_cons_of_pos _ hq]

theorem firstMax_drop_head {c : String} {s : Nat} {t : List (String × Nat)}
    {b : String × Nat} (hb : b ∈ t) (hs : s < b.2) :
    firstMaxSpec ((c, s) :: t) = firstMaxSpec t := by
  unfold firstMaxSpec
  have hhead : (((c, s) :: t).all (fun q => q.2 ≤ (c, s).2)) = false := by
    refine Bool.eq_false_iff.mpr fun hall => ?_
    rw [List.all_eq_true] at hall
    have := of_decide_eq_true (hall b (by simp [hb]))
    omega
  rw [List.find?_cons_of_neg _ (by rw [hhead]; exact Bool.false_ne_true)]
  refine congrArg _ (find?_congr _ _ t fun x hx => ?_)
  rw [List.all_cons]
  cases hat : t.all (fun q => decide (q.2 ≤ x.2))
  · rw [Bool.and_false]
  · have hbx : b.2 ≤ x.2 := of_decide_eq_true (List.all_eq_true.mp hat b hb)
    have hsx : s ≤ x.2 := le_trans (le_of_lt hs) hbx
    rw [Bool.and_true, decide_eq_true hsx]

theorem find?_cons_pos {α : Type} (p : α → Bool) (a : α) (l : List α) (h : p a = true) :
    List.find? p (a :: l) = some a :=
  List.find?_cons_of_pos l h

theorem find?_cons_neg {α : Type} (p : α → Bool) (a : α) (l : List α) (h : p a = false) :
    List.find? p (a :: l) = List.find? p l :=
  List.find?_cons_of_neg l (by rw [h]; exact Bool.false_ne_true)

theorem firstMax_drop_second {c c2 : String} {s s2 : Nat} {r : List (String × Nat)}
    (hle : s2 ≤ s) :
    firstMaxSpec ((c, s) :: (c2, s2) :: r) = firstMaxSpec ((c, s) :: r) := by
  unfold firstMaxSpec
  by_cases hra : r.all (fun q => decide (q.2 ≤ s)) = true
  · have hL : (((c, s) :: (c2, s2) :: r).all (fun q => q.2 ≤ (c, s).2)) = true := by
      rw [List.all_cons, List.all_cons]
      simp only [decide_eq_true le_rfl, decide_eq_true hle, Bool.true_and]
      exact hra
    have hR : (((c, s) :: r).all (fun q => q.2 ≤ (c, s).2)) = true := by
      rw [List.all_cons]
      simp only [decide_eq_true le_rfl, Bool.true_and]
      exact hra
    rw [find?_cons_pos (fun p => ((c, s) :: (c2, s2) :: r).all fun q => decide (q.2 ≤ p.2))
        (c, s) ((c2, s2) :: r) hL,
      find?_cons_pos (fun p => ((c, s) :: r).all fun q => decide (q.2 ≤ p.2)) (c, s) r hR]
  · have hra2 : r.all (fun q => decide (q.2 ≤ s)) = false := Bool.not_eq_true _ |>.mp hra
    have hL : (((c, s) :: (c2, s2) :: r).all (fun q => q.2 ≤ (c, s).2)) = false := by
      rw [List.all_cons, List.all_cons, hra2]
      simp
    have hR : (((c, s) :: r).all (fun q => q.2 ≤ (c, s).2)) = false := by
      rw [List.all_cons, hra2]
      simp
    have hsecond : (((c, s) :: (c2, s2) :: r).all (fun q => q.2 ≤ (c2, s2).2)) = false := by
      rw [List.all_cons, List.all_cons]
      by_cases hss : s ≤ s2
      · have hs2 : s2 = s := le_antisymm hle hss
        rw [hs2, hra2]
        simp
      · rw [decide_eq_false hss]
        simp
    rw [find?_cons_neg (fun p => ((c, s) :: (c2, s2) :: r).all fun q => decide (q.2 ≤ p.2))
        (c, s) ((c2, s2) :: r) hL,
      find?_cons_neg (fun p => ((c, s) :: (c2, s2) :: r).all fun q => decide (q.2 ≤ p.2))
        (c2, s2) r hsecond,
      find?_cons_neg (fun p => ((c, s) :: r).all fun q => decide (q.2 ≤ p.2)) (c, s) r hR]
    refine congrArg _ (find?_congr _ _ r fun x hx => ?_)
    rw [List.all_cons, List.all_cons, List.all_cons]
    cases hsx : decide (s ≤ x.2)
    · rw [Bool.false_and, Bool.false_and]
    · have hs2x : s2 ≤ x.2 := le_trans hle (of_decide_eq_true hsx)
      rw [decide_eq_true hs2x]
      simp

theorem maxKeyGo_eq_firstMax : ∀ (rest : List (String × Nat)) (c : String) (s : Nat),
    some (maxKeyGo c s rest) = firstMaxSpec ((c, s) :: rest)
  | [], c, s => by
    simp only [maxKeyGo, firstMaxSpec]
    rw [List.find?_cons_of_pos _ (by simp)]
    rfl
  | (c2, s2) :: r, c, s => by
    by_cases hlt : s < s2
    · simp only [maxKeyGo, if_pos hlt]
      rw [maxKeyGo_eq_firstMax r c2 s2]
      exact (firstMax_drop_head (b := (c2, s2)) (by simp) hlt).symm
    · simp only [maxKeyGo, if_neg hlt]
      rw [maxKeyGo_eq_firstMax r c s]
      exact (firstMax_drop_second (Nat.le_of_not_lt hlt)).symm

theorem maxKey_eq_firstMax : ∀ l : List (String × Nat), maxKey l = firstMaxSpec l
  | [] => rfl
  | (c, s) :: rest => by
    simp only [maxKey]
    exact maxKeyGo_eq_firstMax rest c s

theorem maxKey_none_iff : ∀ l : List (String × Nat), maxKey l = none ↔ l = []
  | [] => by simp [maxKey]
  | q :: rest => by simp [maxKey]

/-- Claim C4: in `classify_header` and `classify_text_1`, ties in keyword
score are broken by taxonomy registration order: the result is always the
first candidate (in registration order) attaining the maximal score, as
witnessed on two concrete two-way ties. -/
theorem c4_tie_break_registration_order :
    (∀ text, classify_header text = firstMaxSpec (candidates2 text)) ∧
    (∀ text, classify_text_1 text = firstMaxSpec (candidates1 text)) ∧
    candidates2 "case sheet initial assessment" = [("patient_record", 1), ("assessment", 1)] ∧
    classify_header "case sheet initial assessment" = some "patient_record" ∧
    candidates1 "assessment report" = [("initial_assessment_1", 1), ("investigation_report_1", 1)] ∧
    classify_text_1 "assessment report" = some "initial_assessment_1" :=
  ⟨fun _ => maxKey_eq_firstMax _, fun _ => maxKey_eq_firstMax _,
   by decide, by decide, by decide, by decide⟩

/-- Claim C5: the footer fallback runs exactly when the header classification
is `None` or the header text is weak (fewer than 10 characters `a`-`z`); when
it runs, a footer category replaces the header result and otherwise the
header result stands. -/
theorem c5_footer_fallback (ht ft : String) :
    (is_header_weak ht =
      decide ((ht.data.filter (fun c => 'a' ≤ c && c ≤ 'z')).length < 10)) ∧
    (¬(classify_header ht = none ∨ is_header_weak ht = true) →
      footerFallback ht ft = classify_header ht) ∧
    ((classify_header ht = none ∨ is_header_weak ht = true) →
      ∀ fc, classify_header ft = some fc → footerFallback ht ft = some fc) ∧
    ((classify_header ht = none ∨ is_header_weak ht = true) →
      classify_header ft = none → footerFallback ht ft = classify_header ht) := by
  have hcond : ((classify_header ht).isNone || is_header_weak ht) = true ↔
      (classify_header ht = none ∨ is_header_weak ht = true) := by
    rw [Bool.or_eq_true, Option.isNone_iff_eq_none]
  refine ⟨?_, ?_, ?_, ?_⟩
  · unfold is_header_weak
    cases hd : ht.data with
    | nil => simp
    | cons a as => simp
  · intro h
    unfold footerFallback
    rw [if_neg (fun hx => h (hcond.mp hx))]
  · intro h fc hfc
    unfold footerFallback
    rw [if_pos (hcond.mpr h), hfc]
  · intro h hfc
    unfold footerFallback
    rw [if_pos (hcond.mpr h), hfc]

/-- Witness for C5 at concrete inputs: a strong header stands (footer
ignored), a weak header is overridden by the footer category. -/
theorem c5_footer_fallback_witness :
    footerFallback "xx" "vitals chart" = some "vitals_chart" ∧
    footerFallback "case record" "vitals chart" = some "patient_record" := by
  constructor
  · exact (c5_footer_fallback "xx" "vitals chart").2.2.1 (Or.inr (by decide))
      "vitals_chart" (by decide)
  · have h := (c5_footer_fallback "case record" "vitals chart").2.1 (by decide)
    rw [h]
    decide

/-- Claim C6: `refine_with_body` yields `None` exactly on `None`; a category
with a confirmation rule is kept when at least 2 rule keywords occur in the
body text and suffixed with `_uncertain` otherwise; a category without a rule
passes through unchanged. -/
theorem c6_refine_with_body (hc : Option String) (body : String) :
    (refine_with_body hc body = none ↔ hc = none) ∧
    (∀ c kws, hc = some c → BODY_RULES.lookup c = some kws →
      (2 ≤ scoreOf kws body → refine_with_body hc body = some c) ∧
      (scoreOf kws body < 2 → refine_with_body hc body = some (c ++ "_uncertain"))) ∧
    (∀ c, hc = some c → BODY_RULES.lookup c = none → refine_with_body hc body = some c) := by
  refine ⟨?_, ?_, ?_⟩
  · cases hc with
    | none => simp [refine_with_body]
    | some c =>
      simp only [refine_with_body]
      constructor
      · intro h
        revert h
        cases BODY_RULES.lookup c with
        | none => simp
        | some kws =>
          intro h
          have h2 : (if 2 ≤ scoreOf kws body then some c
              else some (c ++ "_uncertain")) = none := h
          revert h2
          split <;> simp
      · intro h
        exact Option.noConfusion h
  · intro c kws hhc hlook
    subst hhc
    simp only [refine_with_body, hlook]
    constructor
    · intro h2
      rw [if_pos h2]
    · intro h2
      rw [if_neg (by omega)]
  · intro c hhc hlook
    subst hhc
    simp [refine_with_body, hlook]

/-- Witness for C6 at concrete inputs: an unconfirmed `assessment` is
downgraded, a twice-confirmed `vitals_chart` is kept, a rule-less
`patient_record` passes through, and `None` maps to `None`. -/
theorem c6_refine_with_body_witness :
    refine_with_body (some "assessment") "x" = some "assessment_uncertain" ∧
    refine_with_body (some "vitals_chart") "bp 120 pulse 80" = some "vitals_chart" ∧
    refine_with_body (some "patient_record") "x" = some "patient_record" ∧
    refine_with_body none "x" = none := by
  refine ⟨?_, ?_, ?_, ?_⟩
  · exact ((c6_refine_with_body (some "assessment") "x").2.1 "assessment"
      ["diagnosis", "provisional", "final", "chief complaints",
       "history of present illness", "clinical findings"] rfl (by decide)).2 (by decide)
  · exact ((c6_refine_with_body (some "vitals_chart") "bp 120 pulse 80").2.1 "vitals_chart"
      ["bp", "pulse", "temp", "spo2", "intake", "output"] rfl (by decide)).1 (by decide)
  · exact (c6_refine_with_body (some "patient_record") "x").2.2 "patient_record" rfl (by decide)
  · exact (c6_refine_with_body none "x").1.mpr rfl

/-- Claim C7: `classify_text_1` returns the maximum-scoring category among
those meeting their own threshold (with the +2 vital-regex boost folded into
`drug_vital_chart_1`'s score, as recorded in `candidates1`), or `None` when
no category qualifies; on "vitals chart bp 120/80" the sole qualifier is
`drug_vital_chart_1` with score 3 = 1 keyword + 2 boost. -/
theorem c7_classify_text_1 :
    (∀ text, classify_text_1 text = none ↔ candidates1 text = []) ∧
    (∀ text c, classify_text_1 text = some c →
      ∃ s, (c, s) ∈ candidates1 text ∧ ∀ q ∈ candidates1 text, q.2 ≤ s) ∧
    candidates1 "vitals chart bp 120/80" = [("drug_vital_chart_1", 3)] ∧
    classify_text_1 "vitals chart bp 120/80" = some "drug_vital_chart_1" ∧
    vitalSearch "vitals chart bp 120/80" = true ∧
    scoreOf ["medicine chart", "master chart", "treatment sheet", "medication chart",
      "vital chart", "vitals", "vitals input and output chart"] "vitals chart bp 120/80" = 1 := by
  refine ⟨fun text => maxKey_none_iff _, ?_, by decide, by decide, by decide, by decide⟩
  intro text c h
  rw [show classify_text_1 text = maxKey (candidates1 text) from rfl,
    maxKey_eq_firstMax] at h
  unfold firstMaxSpec at h
  obtain ⟨p, hfind, hp1⟩ := Option.map_eq_some'.mp h
  have hmem := List.mem_of_find?_eq_some hfind
  have hpred := List.find?_some hfind
  rw [List.all_eq_true] at hpred
  refine ⟨p.2, ?_, fun q hq => of_decide_eq_true (hpred q hq)⟩
  rw [← hp1]
  exact hmem

/-- Witness for C7: the characterization applied at the concrete scenario. -/
theorem c7_classify_text_1_witness :
    ∃ s, ("drug_vital_chart_1", s) ∈ candidates1 "vitals chart bp 120/80" ∧
      ∀ q ∈ candidates1 "vitals chart bp 120/80", q.2 ≤ s :=
  c7_classify_text_1.2.1 "vitals chart bp 120/80" "drug_vital_chart_1" (by decide)

/-! ### Sorting the directory listing -/

theorem lexLe_total : ∀ a b : List Char, lexLe a b = true ∨ lexLe b a = true
  | [], _ => Or.inl rfl
  | _ :: _, [] => Or.inr rfl
  | a :: as, b :: bs => by
    by_cases hab : a = b
    · subst hab
      simp only [lexLe, if_pos rfl]
      exact lexLe_total as bs
    · rcases lt_trichotomy a b with h | h | h
      · refine Or.inl ?_
        simp only [lexLe, if_neg hab]
        exact decide_eq_true h
      · exact absurd h hab
      · refine Or.inr ?_
        simp only [lexLe, if_neg (Ne.symm hab)]
        exact decide_eq_true h

theorem lexLe_trans : ∀ a b c : List Char,
    lexLe a b = true → lexLe b c = true → lexLe a c = true
  | [], _, _, _, _ => rfl
  | x :: xs, [], _, h1, _ => by simp [lexLe] at h1
  | x :: xs, y :: ys, [], _, h2 => by simp [lexLe] at h2
  | x :: xs, y :: ys, z :: zs, h1, h2 => by
    simp only [lexLe] at h1 h2 ⊢
    by_cases hxy : x = y
    · subst hxy
      rw [if_pos rfl] at h1
      by_cases hyz : x = z
      · subst hyz
        rw [if_pos rfl] at h2 ⊢
        exact lexLe_trans xs ys zs h1 h2
      · rw [if_neg hyz] at h2 ⊢
        exact h2
    · rw [if_neg hxy] at h1
      have hx : x < y := of_decide_eq_true h1
      by_cases hyz : y = z
      · rw [← hyz, if_neg hxy]
        exact decide_eq_true hx
      · rw [if_neg hyz] at h2
        have hy : y < z := of_decide_eq_true h2
        have hxz : x < z := lt_trans hx hy
        rw [if_neg (ne_of_lt hxz)]
        exact decide_eq_true hxz

theorem nameLe_total (f g : PageFile) : nameLe f g = true ∨ nameLe g f = true :=
  lexLe_total _ _

theorem nameLe_trans {f g h : PageFile} :
    nameLe f g = true → nameLe g h = true → nameLe f h = true :=
  lexLe_trans _ _ _

theorem mem_insertSorted : ∀ (l : List PageFile) (x y : PageFile),
    y ∈ insertSorted x l ↔ y = x ∨ y ∈ l
  | [], x, y => by simp [insertSorted]
  | z :: zs, x, y => by
    simp only [insertSorted]
    by_cases h : nameLe x z = true
    · rw [if_pos h]
      simp only [List.mem_cons]
    · rw [if_neg h]
      simp only [List.mem_cons, mem_insertSorted zs x y]
      tauto

theorem pairwise_insertSorted : ∀ (l : List PageFile) (x : PageFile),
    l.Pairwise (fun f g => nameLe f g = true) →
    (insertSorted x l).Pairwise (fun f g => nameLe f g = true)
  | [], x, _ => by simp [insertSorted]
  | z :: zs, x, hp => by
    obtain ⟨hz, hzs⟩ := List.pairwise_cons.mp hp
    simp only [insertSorted]
    by_cases h : nameLe x z = true
    · rw [if_pos h]
      refine List.pairwise_cons.mpr ⟨?_, hp⟩
      intro y hy
      rcases List.mem_cons.mp hy with rfl | hy2
      · exact h
      · exact nameLe_trans h (hz y hy2)
    · rw [if_neg h]
      refine List.pairwise_cons.mpr ⟨?_, pairwise_insertSorted zs x hzs⟩
      intro y hy
      rcases (mem_insertSorted zs x y).mp hy with rfl | hy2
      · rcases nameLe_total y z with h1 | h1
        · exact absurd h1 h
        · exact h1
      · exact hz y hy2

theorem sortFiles_pairwise : ∀ l : List PageFile,
    (sortFiles l).Pairwise (fun f g => nameLe f g = true)
  | [] => List.Pairwise.nil
  | x :: xs => pairwise_insertSorted (sortFiles xs) x (sortFiles_pairwise xs)

theorem insertSorted_perm : ∀ (l : List PageFile) (x : PageFile),
    List.Perm (insertSorted x l) (x :: l)
  | [], x => List.Perm.refl _
  | z :: zs, x => by
    simp only [insertSorted]
    by_cases h : nameLe x z = true
    · rw [if_pos h]
    · rw [if_neg h]
      exact (List.Perm.cons z (insertSorted_perm zs x)).trans (List.Perm.swap x z zs)

theorem sortFiles_perm : ∀ l : List PageFile, List.Perm (sortFiles l) l
  | [] => List.Perm.refl _
  | x :: xs => (insertSorted_perm (sortFiles xs) x).trans (List.Perm.cons x (sortFiles_perm xs))

/-! ### Small helpers for the pipeline loops -/

theorem mem_copyInsert {x d : String} {outDir : List String} (h : x ∈ copyInsert outDir d) :
    x ∈ outDir ∨ x = d := by
  unfold copyInsert at h
  split at h
  · exact Or.inl h
  · rcases List.mem_append.mp h with h1 | h1
    · exact Or.inl h1
    · exact Or.inr (by simpa using h1)

theorem copyInsert_sub {outDir : List String} (d : String) : ∀ x ∈ outDir, x ∈ copyInsert outDir d := by
  intro x hx
  unfold copyInsert
  split
  · exact hx
  · exact List.mem_append_left _ hx

theorem toList_length_le {α : Type} (o : Option α) : o.toList.length ≤ 1 := by
  cases o <;> simp

theorem nodup_length_le_dedup {α : Type} [DecidableEq α] {l m : List α}
    (h : l.Nodup) (hsub : l ⊆ m) : l.length ≤ m.dedup.length := by
  have h1 : l.toFinset.card = l.length := by
    rw [List.card_toFinset, List.dedup_eq_self.mpr h]
  have h2 : m.toFinset.card = m.dedup.length := List.card_toFinset m
  rw [← h1, ← h2]
  apply Finset.card_le_card
  intro x hx
  rw [List.mem_toFinset] at hx ⊢
  exact hsub hx

/-! ### The structured per-page loop: master invariant -/

theorem det2Loop_spec {Img : Type} (env : Env Img) (cb : ℚ → Bool) (total : Nat) :
    ∀ (files : List PageFile) (i : Nat) (processed outDir : List String),
      i + files.length ≤ total →
      List.Sublist (det2Loop env cb total i processed outDir files).visited files ∧
      (∀ f ∈ (det2Loop env cb total i processed outDir files).visited,
        env.hash f.content ∉ processed) ∧
      ((det2Loop env cb total i processed outDir files).visited.map
        (fun f => env.hash f.content)).Nodup ∧
      (det2Loop env cb total i processed outDir files).copies.length ≤
        (det2Loop env cb total i processed outDir files).visited.length ∧
      ((∀ r, cb r = true) →
        (det2Loop env cb total i processed outDir files).found =
          some (det2Loop env cb total i processed outDir files).copies ∧
        (det2Loop env cb total i processed outDir files).calls.length =
          (det2Loop env cb total i processed outDir files).visited.length) ∧
      ((det2Loop env cb total i processed outDir files).found = none ↔
        ∃ r ∈ (det2Loop env cb total i processed outDir files).calls, cb r = false) ∧
      (∀ r ∈ (det2Loop env cb total i processed outDir files).calls,
        ∃ k, i ≤ k ∧ k < total ∧ r = ((k : ℚ) + 1) / (total : ℚ)) ∧
      (det2Loop env cb total i processed outDir files).calls.Pairwise (· < ·) ∧
      (∀ x ∈ (det2Loop env cb total i processed outDir files).outFiles,
        x ∈ outDir ∨ x ∈ (det2Loop env cb total i processed outDir files).copies) ∧
      (∀ x ∈ outDir, x ∈ (det2Loop env cb total i processed outDir files).outFiles) := by
  intro files
  induction files with
  | nil =>
    intro i processed outDir hi
    simp only [det2Loop]
    refine ⟨List.nil_sublist _, ?_, ?_, ?_, ?_, ?_, ?_, ?_, ?_, ?_⟩
    · simp
    · simp
    · simp
    · intro _
      constructor <;> trivial
    · simp
    · simp
    · simp
    · intro x hx
      exact Or.inl hx
    · intro x hx
      exact hx
  | cons f rest ih =>
    intro i processed outDir hi
    have hi1 : (i + 1) + rest.length ≤ total := by
      simp only [List.length_cons] at hi
      omega
    have hitotal : i < total := by
      simp only [List.length_cons] at hi
      omega
    simp only [det2Loop]
    by_cases hmem : env.hash f.content ∈ processed
    · rw [if_pos hmem]
      obtain ⟨s1, s2, s3, s4, s5, s6, s7, s8, s9, s10⟩ := ih (i + 1) processed outDir hi1
      refine ⟨List.Sublist.cons f s1, s2, s3, s4, s5, s6, ?_, s8, s9, s10⟩
      intro r hr
      obtain ⟨k, hk1, hk2, hk3⟩ := s7 r hr
      exact ⟨k, le_trans (Nat.le_succ i) hk1, hk2, hk3⟩
    · rw [if_neg hmem]
      cases hdec : env.decode f.content with
      | none =>
        obtain ⟨s1, s2, s3, s4, s5, s6, s7, s8, s9, s10⟩ :=
          ih (i + 1) (env.hash f.content :: processed) outDir hi1
        refine ⟨List.Sublist.cons f s1,
          fun g hg hgp => s2 g hg (List.mem_cons_of_mem _ hgp), s3, s4, s5, s6, ?_, s8, s9, s10⟩
        intro r hr
        obtain ⟨k, hk1, hk2, hk3⟩ := s7 r hr
        exact ⟨k, le_trans (Nat.le_succ i) hk1, hk2, hk3⟩
      | some img =>
        dsimp only
        by_cases hcb : cb (((i : ℚ) + 1) / (total : ℚ)) = true
        · rw [if_pos hcb]
          obtain ⟨s1, s2, s3, s4, s5, s6, s7, s8, s9, s10⟩ :=
            ih (i + 1) (env.hash f.content :: processed)
              (match (pageCategory2 env img).map
                  (fun c => stemOf f.name ++ "_" ++ clean_filename c ++ ".png") with
                | some dst => copyInsert outDir dst
                | none => outDir) hi1
          refine ⟨List.Sublist.cons₂ f s1, ?_, ?_, ?_, ?_, ?_, ?_, ?_, ?_, ?_⟩
          · intro g hg
            rcases List.mem_cons.mp hg with rfl | hg2
            · exact hmem
            · exact fun hgp => s2 g hg2 (List.mem_cons_of_mem _ hgp)
          · rw [List.map_cons]
            refine List.nodup_cons.mpr ⟨?_, s3⟩
            intro hin
            rw [List.mem_map] at hin
            obtain ⟨g, hg, hgh⟩ := hin
            exact s2 g hg (by rw [hgh]; exact List.mem_cons_self _ _)
          · rw [List.length_append, List.length_cons]
            have hc := toList_length_le ((pageCategory2 env img).map
              (fun c => stemOf f.name ++ "_" ++ clean_filename c ++ ".png"))
            omega
          · intro hall
            obtain ⟨hf, hl⟩ := s5 hall
            constructor
            · rw [hf]
              rfl
            · simp only [List.length_cons, hl]
          · rw [Option.map_eq_none', s6]
            constructor
            · rintro ⟨r, hr, hrf⟩
              exact ⟨r, List.mem_cons_of_mem _ hr, hrf⟩
            · rintro ⟨r, hr, hrf⟩
              rcases List.mem_cons.mp hr with rfl | hr2
              · rw [hcb] at hrf
                exact Bool.noConfusion hrf
              · exact ⟨r, hr2, hrf⟩
          · intro r hr
            rcases List.mem_cons.mp hr with rfl | hr2
            · exact ⟨i, le_rfl, hitotal, rfl⟩
            · obtain ⟨k, hk1, hk2, hk3⟩ := s7 r hr2
              exact ⟨k, le_trans (Nat.le_succ i) hk1, hk2, hk3⟩
          · refine List.pairwise_cons.mpr ⟨?_, s8⟩
            intro r hr
            obtain ⟨k, hk1, hk2, hk3⟩ := s7 r hr
            rw [hk3]
            have ht : (0 : ℚ) < (total : ℚ) := by
              exact_mod_cast Nat.lt_of_le_of_lt (Nat.zero_le k) hk2
            rw [div_lt_div_iff_of_pos_right ht]
            have hik : i < k := hk1
            exact_mod_cast Nat.succ_lt_succ hik
          · intro x hx
            rcases s9 x hx with h1 | h1
            · cases hcat : (pageCategory2 env img).map
                  (fun c => stemOf f.name ++ "_" ++ clean_filename c ++ ".png") with
              | none =>
                rw [hcat] at h1
                exact Or.inl h1
              | some dst =>
                rw [hcat] at h1
                rcases mem_copyInsert h1 with h2 | h2
                · exact Or.inl h2
                · refine Or.inr (List.mem_append_left _ ?_)
                  rw [h2]
                  simp
            · exact Or.inr (List.mem_append_right _ h1)
          · intro x hx
            apply s10
            cases hcat : (pageCategory2 env img).map
                (fun c => stemOf f.name ++ "_" ++ clean_filename c ++ ".png") with
            | none => exact hx
            | some dst => exact copyInsert_sub dst x hx
        · rw [if_neg hcb]
          refine ⟨List.Sublist.cons₂ f (List.nil_sublist rest), ?_, by simp, ?_,
            fun hall => absurd (hall _) hcb, ?_, ?_, by simp, ?_, ?_⟩
          · intro g hg
            rcases List.mem_cons.mp hg with rfl | hg2
            · exact hmem
            · simp at hg2
          · have hc := toList_length_le ((pageCategory2 env img).map
              (fun c => stemOf f.name ++ "_" ++ clean_filename c ++ ".png"))
            simp only [List.length_cons, List.length_nil]
            omega
          · constructor
            · intro _
              exact ⟨((i : ℚ) + 1) / (total : ℚ), by simp, Bool.not_eq_true _ |>.mp hcb⟩
            · intro _
              rfl
          · intro r hr
            rcases List.mem_cons.mp hr with rfl | hr2
            · exact ⟨i, le_rfl, hitotal, rfl⟩
            · simp at hr2
          · intro x hx
            cases hcat : (pageCategory2 env img).map
                (fun c => stemOf f.name ++ "_" ++ clean_filename c ++ ".png") with
            | none =>
              rw [hcat] at hx
              exact Or.inl hx
            | some dst =>
              rw [hcat] at hx
              rcases mem_copyInsert hx with h2 | h2
              · exact Or.inl h2
              · refine Or.inr ?_
                rw [h2]
                simp
          · intro x hx
            cases hcat : (pageCategory2 env img).map
                (fun c => stemOf f.name ++ "_" ++ clean_filename c ++ ".png") with
            | none => exact hx
            | some dst => exact copyInsert_sub dst x hx

/-! ### The unstructured per-page loop: master invariant -/

theorem det1Loop_spec {Img : Type} (env : Env Img) (cb : ℚ → Bool) (total : Nat) :
    ∀ (files : List PageFile) (i : Nat) (outDir : List String),
      i + files.length ≤ total →
      List.Sublist (det1Loop env cb total i outDir files).visited files ∧
      (det1Loop env cb total i outDir files).copies.length ≤
        (det1Loop env cb total i outDir files).visited.length ∧
      ((∀ r, cb r = true) →
        (det1Loop env cb total i outDir files).found =
          some (det1Loop env cb total i outDir files).copies ∧
        (det1Loop env cb total i outDir files).calls.length =
          (det1Loop env cb total i outDir files).visited.length) ∧
      ((det1Loop env cb total i outDir files).found = none ↔
        ∃ r ∈ (det1Loop env cb total i outDir files).calls, cb r = false) ∧
      (∀ r ∈ (det1Loop env cb total i outDir files).calls,
        ∃ k, i ≤ k ∧ k < total ∧ r = ((k : ℚ) + 1) / (total : ℚ)) ∧
      (det1Loop env cb total i outDir files).calls.Pairwise (· < ·) ∧
      (∀ x ∈ (det1Loop env cb total i outDir files).outFiles,
        x ∈ outDir ∨ x ∈ (det1Loop env cb total i outDir files).copies) ∧
      (∀ x ∈ outDir, x ∈ (det1Loop env cb total i outDir files).outFiles) := by
  intro files
  induction files with
  | nil =>
    intro i outDir hi
    simp only [det1Loop]
    refine ⟨List.nil_sublist _, ?_, ?_, ?_, ?_, ?_, ?_, ?_⟩
    · simp
    · intro _
      constructor <;> trivial
    · simp
    · simp
    · simp
    · intro x hx
      exact Or.inl hx
    · intro x hx
      exact hx
  | cons f rest ih =>
    intro i outDir hi
    have hi1 : (i + 1) + rest.length ≤ total := by
      simp only [List.length_cons] at hi
      omega
    have hitotal : i < total := by
      simp only [List.length_cons] at hi
      omega
    simp only [det1Loop]
    cases hdec : env.decode f.content with
    | none =>
      obtain ⟨s1, s2, s3, s4, s5, s6, s7, s8⟩ := ih (i + 1) outDir hi1
      refine ⟨List.Sublist.cons f s1, s2, s3, s4, ?_, s6, s7, s8⟩
      intro r hr
      obtain ⟨k, hk1, hk2, hk3⟩ := s5 r hr
      exact ⟨k, le_trans (Nat.le_succ i) hk1, hk2, hk3⟩
    | some img =>
      dsimp only
      by_cases hcb : cb (((i : ℚ) + 1) / (total : ℚ)) = true
      · rw [if_pos hcb]
        obtain ⟨s1, s2, s3, s4, s5, s6, s7, s8⟩ :=
          ih (i + 1)
            (match (classify_text_1 (normalize_text_1 (env.rawFull img))).map
                (fun c => freshName (clean_filename_1 c) outDir) with
              | some dst => copyInsert outDir dst
              | none => outDir) hi1
        refine ⟨List.Sublist.cons₂ f s1, ?_, ?_, ?_, ?_, ?_, ?_, ?_⟩
        · rw [List.length_append, List.length_cons]
          have hc := toList_length_le ((classify_text_1 (normalize_text_1 (env.rawFull img))).map
            (fun c => freshName (clean_filename_1 c) outDir))
          omega
        · intro hall
          obtain ⟨hf, hl⟩ := s3 hall
          constructor
          · rw [hf]
            rfl
          · simp only [List.length_cons, hl]
        · rw [Option.map_eq_none', s4]
          constructor
          · rintro ⟨r, hr, hrf⟩
            exact ⟨r, List.mem_cons_of_mem _ hr, hrf⟩
          · rintro ⟨r, hr, hrf⟩
            rcases List.mem_cons.mp hr with rfl | hr2
            · rw [hcb] at hrf
              exact Bool.noConfusion hrf
            · exact ⟨r, hr2, hrf⟩
        · intro r hr
          rcases List.mem_cons.mp hr with rfl | hr2
          · exact ⟨i, le_rfl, hitotal, rfl⟩
          · obtain ⟨k, hk1, hk2, hk3⟩ := s5 r hr2
            exact ⟨k, le_trans (Nat.le_succ i) hk1, hk2, hk3⟩
        · refine List.pairwise_cons.mpr ⟨?_, s6⟩
          intro r hr
          obtain ⟨k, hk1, hk2, hk3⟩ := s5 r hr
          rw [hk3]
          have ht : (0 : ℚ) < (total : ℚ) := by
            exact_mod_cast Nat.lt_of_le_of_lt (Nat.zero_le k) hk2
          rw [div_lt_div_iff_of_pos_right ht]
          have hik : i < k := hk1
          exact_mod_cast Nat.succ_lt_succ hik
        · intro x hx
          rcases s7 x hx with h1 | h1
          · cases hcat : (classify_text_1 (normalize_text_1 (env.rawFull img))).map
                (fun c => freshName (clean_filename_1 c) outDir) with
            | none =>
              rw [hcat] at h1
              exact Or.inl h1
            | some dst =>
              rw [hcat] at h1
              rcases mem_copyInsert h1 with h2 | h2
              · exact Or.inl h2
              · refine Or.inr (List.mem_append_left _ ?_)
                rw [h2]
                simp
          · exact Or.inr (List.mem_append_right _ h1)
        · intro x hx
          apply s8
          cases hcat : (classify_text_1 (normalize_text_1 (env.rawFull img))).map
              (fun c => freshName (clean_filename_1 c) outDir) with
          | none => exact hx
          | some dst => exact copyInsert_sub dst x hx
      · rw [if_neg hcb]
        refine ⟨List.Sublist.cons₂ f (List.nil_sublist rest), ?_,
          fun hall => absurd (hall _) hcb, ?_, ?_, by simp, ?_, ?_⟩
        · have hc := toList_length_le ((classify_text_1 (normalize_text_1 (env.rawFull img))).map
            (fun c => freshName (clean_filename_1 c) outDir))
          simp only [List.length_cons, List.length_nil]
          omega
        · constructor
          · intro _
            exact ⟨((i : ℚ) + 1) / (total : ℚ), by simp, Bool.not_eq_true _ |>.mp hcb⟩
          · intro _
            rfl
        · intro r hr
          rcases List.mem_cons.mp hr with rfl | hr2
          · exact ⟨i, le_rfl, hitotal, rfl⟩
          · simp at hr2
        · intro x hx
          cases hcat : (classify_text_1 (normalize_text_1 (env.rawFull img))).map
              (fun c => freshName (clean_filename_1 c) outDir) with
          | none =>
            rw [hcat] at hx
            exact Or.inl hx
          | some dst =>
            rw [hcat] at hx
            rcases mem_copyInsert hx with h2 | h2
            · exact Or.inl h2
            · refine Or.inr ?_
              rw [h2]
              simp
        · intro x hx
          cases hcat : (classify_text_1 (normalize_text_1 (env.rawFull img))).map
              (fun c => freshName (clean_filename_1 c) outDir) with
          | none => exact hx
          | some dst => exact copyInsert_sub dst x hx

/-- Claim C1 (amended): deduplication holds in the *structured* pipeline only:
there, no two OCR'd pages share a content hash, and the number of copies is at
most the number of distinct content hashes in the input; the unstructured
pipeline performs no deduplication (see the counterexample). -/
theorem c1_structured_dedup {Img : Type} (env : Env Img) (cb : ℚ → Bool)
    (files : List PageFile) (outInit : List String) :
    ((detect_medical_pages_2 env cb files outInit).visited.map
      (fun f => env.hash f.content)).Nodup ∧
    (detect_medical_pages_2 env cb files outInit).copies.length ≤
      ((files.map (fun f => env.hash f.content)).dedup).length := by
  obtain ⟨s1, s2, s3, s4, -, -, -, -, -, -⟩ :=
    det2Loop_spec env cb (sortFiles files).length (sortFiles files) 0 [] [] (by simp)
  refine ⟨s3, ?_⟩
  have hsub : ((detect_medical_pages_2 env cb files outInit).visited.map
      (fun f => env.hash f.content)) ⊆ ((sortFiles files).map (fun f => env.hash f.content)) :=
    (s1.map _).subset
  have hlen := nodup_length_le_dedup s3 hsub
  have hperm : ((sortFiles files).map (fun f => env.hash f.content)).dedup.length =
      (files.map (fun f => env.hash f.content)).dedup.length :=
    ((sortFiles_perm files).map _).dedup.length_eq
  calc (detect_medical_pages_2 env cb files outInit).copies.length
      ≤ (detect_medical_pages_2 env cb files outInit).visited.length := s4
    _ = ((detect_medical_pages_2 env cb files outInit).visited.map
        (fun f => env.hash f.content)).length := (List.length_map _ _).symm
    _ ≤ ((sortFiles files).map (fun f => env.hash f.content)).dedup.length := hlen
    _ = (files.map (fun f => env.hash f.content)).dedup.length := hperm

/-- Counterexample to C1 as stated: the unstructured pipeline
(`detect_medical_pages_1`) has no deduplication.  Two byte-identical pages
(one distinct content hash) are both OCR'd and both copied, so the number of
output artifacts (2) exceeds the number of distinct content hashes (1). -/
theorem c1_counterexample :
    (detect_medical_pages_1 (simpleEnv "plan of care") (fun _ => true)
      [⟨"page_1.png", [7]⟩, ⟨"page_2.png", [7]⟩] []).visited.length = 2 ∧
    (detect_medical_pages_1 (simpleEnv "plan of care") (fun _ => true)
      [⟨"page_1.png", [7]⟩, ⟨"page_2.png", [7]⟩] []).copies =
      ["treatment_plan.png", "treatment_plan_1.png"] ∧
    (([⟨"page_1.png", [7]⟩, ⟨"page_2.png", [7]⟩] : List PageFile).map
      (fun f => (simpleEnv "plan of care").hash f.content)).dedup.length = 1 ∧
    ¬((detect_medical_pages_1 (simpleEnv "plan of care") (fun _ => true)
      [⟨"page_1.png", [7]⟩, ⟨"page_2.png", [7]⟩] []).copies.length ≤
      (([⟨"page_1.png", [7]⟩, ⟨"page_2.png", [7]⟩] : List PageFile).map
        (fun f => (simpleEnv "plan of care").hash f.content)).dedup.length) := by
  decide

/-- A member of the first list of a zip of equally long lists has a partner. -/
theorem mem_zip_left {α β : Type} : ∀ (l1 : List α) (l2 : List β),
    l1.length = l2.length → ∀ a ∈ l1, ∃ b, (a, b) ∈ l1.zip l2
  | [], _, _, a, ha => by simp at ha
  | x :: xs, [], h, a, ha => by simp at h
  | x :: xs, y :: ys, h, a, ha => by
    rcases List.mem_cons.mp ha with rfl | ha2
    · exact ⟨y, by rw [List.zip_cons_cons]; exact List.mem_cons_self _ _⟩
    · obtain ⟨b, hb⟩ := mem_zip_left xs ys (by simpa using h) a ha2
      exact ⟨b, by rw [List.zip_cons_cons]; exact List.mem_cons_of_mem _ hb⟩

/-- With a never-failing callback, the structured loop's callback fractions
are exactly `(k+1)/total` for an increasing list of listing indices `k`, and
the page at index `k` is the correspondingly processed (OCR'd) page. -/
theorem det2Loop_calls_idx {Img : Type} (env : Env Img) (cb : ℚ → Bool)
    (hall : ∀ r, cb r = true) (total : Nat) :
    ∀ (files : List PageFile) (i : Nat) (processed outDir : List String),
      ∃ idxs : List Nat,
        (det2Loop env cb total i processed outDir files).calls =
          idxs.map (fun k : Nat => ((k : ℚ) + 1) / (total : ℚ)) ∧
        idxs.length = (det2Loop env cb total i processed outDir files).visited.length ∧
        idxs.Pairwise (· < ·) ∧
        (∀ k ∈ idxs, i ≤ k) ∧
        (∀ p ∈ idxs.zip (det2Loop env cb total i processed outDir files).visited,
          files.get? (p.1 - i) = some p.2) := by
  intro files
  induction files with
  | nil =>
    intro i processed outDir
    refine ⟨[], ?_, ?_, ?_, ?_, ?_⟩ <;> simp [det2Loop]
  | cons f rest ih =>
    intro i processed outDir
    simp only [det2Loop]
    by_cases hmem : env.hash f.content ∈ processed
    · rw [if_pos hmem]
      obtain ⟨idxs, h1, h2, h3, h4, h5⟩ := ih (i + 1) processed outDir
      refine ⟨idxs, h1, h2, h3, fun k hk => le_trans (Nat.le_succ i) (h4 k hk), ?_⟩
      rintro ⟨a, b⟩ hp
      have ha := h4 a (List.of_mem_zip hp).1
      have hget := h5 (a, b) hp
      have harith : a - i = (a - (i + 1)) + 1 := by omega
      rw [harith, List.get?_cons_succ]
      exact hget
    · rw [if_neg hmem]
      cases hdec : env.decode f.content with
      | none =>
        obtain ⟨idxs, h1, h2, h3, h4, h5⟩ := ih (i + 1) (env.hash f.content :: processed) outDir
        refine ⟨idxs, h1, h2, h3, fun k hk => le_trans (Nat.le_succ i) (h4 k hk), ?_⟩
        rintro ⟨a, b⟩ hp
        have ha := h4 a (List.of_mem_zip hp).1
        have hget := h5 (a, b) hp
        have harith : a - i = (a - (i + 1)) + 1 := by omega
        rw [harith, List.get?_cons_succ]
        exact hget
      | some img =>
        dsimp only
        rw [if_pos (hall _)]
        obtain ⟨idxs, h1, h2, h3, h4, h5⟩ :=
          ih (i + 1) (env.hash f.content :: processed)
            (match (pageCategory2 env img).map
                (fun c => stemOf f.name ++ "_" ++ clean_filename c ++ ".png") with
              | some dst => copyInsert outDir dst
              | none => outDir)
        refine ⟨i :: idxs, ?_, ?_, ?_, ?_, ?_⟩
        · simp only [List.map_cons]
          exact congrArg _ h1
        · simp only [List.length_cons, h2]
        · exact List.pairwise_cons.mpr ⟨fun k hk => Nat.lt_of_succ_le (h4 k hk), h3⟩
        · intro k hk
          rcases List.mem_cons.mp hk with rfl | hk2
          · exact le_rfl
          · exact le_trans (Nat.le_succ i) (h4 k hk2)
        · rw [List.zip_cons_cons]
          rintro ⟨a, b⟩ hp
          rcases List.mem_cons.mp hp with heq | hp2
          · rw [Prod.mk.injEq] at heq
            obtain ⟨rfl, rfl⟩ := heq
            rw [Nat.sub_self]
            exact List.get?_cons_zero
          · have ha := h4 a (List.of_mem_zip hp2).1
            have hget := h5 (a, b) hp2
            have harith : a - i = (a - (i + 1)) + 1 := by omega
            rw [harith, List.get?_cons_succ]
            exact hget

/-- Unstructured analogue of `det2Loop_calls_idx`. -/
theorem det1Loop_calls_idx {Img : Type} (env : Env Img) (cb : ℚ → Bool)
    (hall : ∀ r, cb r = true) (total : Nat) :
    ∀ (files : List PageFile) (i : Nat) (outDir : List String),
      ∃ idxs : List Nat,
        (det1Loop env cb total i outDir files).calls =
          idxs.map (fun k : Nat => ((k : ℚ) + 1) / (total : ℚ)) ∧
        idxs.length = (det1Loop env cb total i outDir files).visited.length ∧
        idxs.Pairwise (· < ·) ∧
        (∀ k ∈ idxs, i ≤ k) ∧
        (∀ p ∈ idxs.zip (det1Loop env cb total i outDir files).visited,
          files.get? (p.1 - i) = some p.2) := by
  intro files
  induction files with
  | nil =>
    intro i outDir
    refine ⟨[], ?_, ?_, ?_, ?_, ?_⟩ <;> simp [det1Loop]
  | cons f rest ih =>
    intro i outDir
    simp only [det1Loop]
    cases hdec : env.decode f.content with
    | none =>
      obtain ⟨idxs, h1, h2, h3, h4, h5⟩ := ih (i + 1) outDir
      refine ⟨idxs, h1, h2, h3, fun k hk => le_trans (Nat.le_succ i) (h4 k hk), ?_⟩
      rintro ⟨a, b⟩ hp
      have ha := h4 a (List.of_mem_zip hp).1
      have hget := h5 (a, b) hp
      have harith : a - i = (a - (i + 1)) + 1 := by omega
      rw [harith, List.get?_cons_succ]
      exact hget
    | some img =>
      dsimp only
      rw [if_pos (hall _)]
      obtain ⟨idxs, h1, h2, h3, h4, h5⟩ :=
        ih (i + 1)
          (match (classify_text_1 (normalize_text_1 (env.rawFull img))).map
              (fun c => freshName (clean_filename_1 c) outDir) with
            | some dst => copyInsert outDir dst
            | none => outDir)
      refine ⟨i :: idxs, ?_, ?_, ?_, ?_, ?_⟩
      · simp only [List.map_cons]
        exact congrArg _ h1
      · simp only [List.length_cons, h2]
      · exact List.pairwise_cons.mpr ⟨fun k hk => Nat.lt_of_succ_le (h4 k hk), h3⟩
      · intro k hk
        rcases List.mem_cons.mp hk with rfl | hk2
        · exact le_rfl
        · exact le_trans (Nat.le_succ i) (h4 k hk2)
      · rw [List.zip_cons_cons]
        rintro ⟨a, b⟩ hp
        rcases List.mem_cons.mp hp with heq | hp2
        · rw [Prod.mk.injEq] at heq
          obtain ⟨rfl, rfl⟩ := heq
          rw [Nat.sub_self]
          exact List.get?_cons_zero
        · have ha := h4 a (List.of_mem_zip hp2).1
          have hget := h5 (a, b) hp2
          have harith : a - i = (a - (i + 1)) + 1 := by omega
          rw [harith, List.get?_cons_succ]
          exact hget

/-- Claim C2 (amended): with a callback that never fails, each pipeline
invokes the callback exactly once per page that is actually processed —
duplicate-hash pages (structured pipeline) and undecodable pages are skipped
by `continue` *before* the callback, so they trigger none.  Each invoked
fraction equals `(k+1)/total` where `k` is the index, in the sorted listing,
of the page processed by that invocation (the `idxs` conjuncts); the
fractions are strictly increasing and lie in `(0, 1]`; and progress reaches
1 only when the final page of the sorted listing is not skipped (it is among
the processed pages). -/
theorem c2_progress_amended {Img : Type} (env : Env Img)
    (files : List PageFile) (outInit : List String) :
    ((detect_medical_pages_2 env (fun _ => true) files outInit).calls.length =
      (detect_medical_pages_2 env (fun _ => true) files outInit).visited.length) ∧
    (detect_medical_pages_2 env (fun _ => true) files outInit).calls.Pairwise (· < ·) ∧
    (∀ r ∈ (detect_medical_pages_2 env (fun _ => true) files outInit).calls,
      0 < r ∧ r ≤ 1) ∧
    (∃ idxs : List Nat,
      (detect_medical_pages_2 env (fun _ => true) files outInit).calls =
        idxs.map (fun k : Nat => ((k : ℚ) + 1) / ((sortFiles files).length : ℚ)) ∧
      idxs.length = (detect_medical_pages_2 env (fun _ => true) files outInit).visited.length ∧
      idxs.Pairwise (· < ·) ∧
      ∀ p ∈ idxs.zip (detect_medical_pages_2 env (fun _ => true) files outInit).visited,
        (sortFiles files).get? p.1 = some p.2) ∧
    ((1 : ℚ) ∈ (detect_medical_pages_2 env (fun _ => true) files outInit).calls →
      ∃ f, (sortFiles files).get? ((sortFiles files).length - 1) = some f ∧
        f ∈ (detect_medical_pages_2 env (fun _ => true) files outInit).visited) ∧
    ((detect_medical_pages_1 env (fun _ => true) files outInit).calls.length =
      (detect_medical_pages_1 env (fun _ => true) files outInit).visited.length) ∧
    (detect_medical_pages_1 env (fun _ => true) files outInit).calls.Pairwise (· < ·) ∧
    (∀ r ∈ (detect_medical_pages_1 env (fun _ => true) files outInit).calls,
      0 < r ∧ r ≤ 1) ∧
    (∃ idxs : List Nat,
      (detect_medical_pages_1 env (fun _ => true) files outInit).calls =
        idxs.map (fun k : Nat => ((k : ℚ) + 1) / ((sortFiles files).length : ℚ)) ∧
      idxs.length = (detect_medical_pages_1 env (fun _ => true) files outInit).visited.length ∧
      idxs.Pairwise (· < ·) ∧
      ∀ p ∈ idxs.zip (detect_medical_pages_1 env (fun _ => true) files outInit).visited,
        (sortFiles files).get? p.1 = some p.2) ∧
    ((1 : ℚ) ∈ (detect_medical_pages_1 env (fun _ => true) files outInit).calls →
      ∃ f, (sortFiles files).get? ((sortFiles files).length - 1) = some f ∧
        f ∈ (detect_medical_pages_1 env (fun _ => true) files outInit).visited) := by
  obtain ⟨-, -, -, -, s5, -, s7, s8, -, -⟩ :=
    det2Loop_spec env (fun _ => true) (sortFiles files).length (sortFiles files) 0 [] []
      (by simp)
  obtain ⟨-, -, t3, -, t5, t6, -, -⟩ :=
    det1Loop_spec env (fun _ => true) (sortFiles files).length (sortFiles files) 0 outInit
      (by simp)
  obtain ⟨idxs2, i1, i2, i3, -, i5⟩ :=
    det2Loop_calls_idx env (fun _ => true) (fun _ => rfl) (sortFiles files).length
      (sortFiles files) 0 [] []
  obtain ⟨idxs1, j1, j2, j3, -, j5⟩ :=
    det1Loop_calls_idx env (fun _ => true) (fun _ => rfl) (sortFiles files).length
      (sortFiles files) 0 outInit
  refine ⟨(s5 (fun _ => rfl)).2, s8, ?_, ⟨idxs2, i1, i2, i3, ?_⟩, ?_,
    (t3 (fun _ => rfl)).2, t6, ?_, ⟨idxs1, j1, j2, j3, ?_⟩, ?_⟩
  · intro r hr
    obtain ⟨k, -, hk2, hk3⟩ := s7 r hr
    subst hk3
    have ht : (0 : ℚ) < ((sortFiles files).length : ℚ) := by
      exact_mod_cast Nat.lt_of_le_of_lt (Nat.zero_le k) hk2
    exact ⟨div_pos (by positivity) ht, by rw [div_le_one ht]; exact_mod_cast hk2⟩
  · intro p hp
    have := i5 p hp
    rwa [Nat.sub_zero] at this
  · intro h1mem
    have h1m : (1 : ℚ) ∈ (det2Loop env (fun _ => true) (sortFiles files).length 0 [] []
        (sortFiles files)).calls := h1mem
    rw [i1, List.mem_map] at h1m
    obtain ⟨k, hk, hkeq⟩ := h1m
    have ht0 : (((sortFiles files).length : ℕ) : ℚ) ≠ 0 := by
      intro h0
      rw [h0, div_zero] at hkeq
      exact zero_ne_one hkeq
    have hkeq2 : (k : ℚ) + 1 = (((sortFiles files).length : ℕ) : ℚ) := by
      rwa [div_eq_one_iff_eq ht0] at hkeq
    have hk1 : k + 1 = (sortFiles files).length := by exact_mod_cast hkeq2
    obtain ⟨v, hv⟩ := mem_zip_left idxs2 _ i2 k hk
    have hgot := i5 (k, v) hv
    rw [Nat.sub_zero] at hgot
    refine ⟨v, ?_, (List.of_mem_zip hv).2⟩
    rw [show (sortFiles files).length - 1 = k from by omega]
    exact hgot
  · intro r hr
    obtain ⟨k, -, hk2, hk3⟩ := t5 r hr
    subst hk3
    have ht : (0 : ℚ) < ((sortFiles files).length : ℚ) := by
      exact_mod_cast Nat.lt_of_le_of_lt (Nat.zero_le k) hk2
    exact ⟨div_pos (by positivity) ht, by rw [div_le_one ht]; exact_mod_cast hk2⟩
  · intro p hp
    have := j5 p hp
    rwa [Nat.sub_zero] at this
  · intro h1mem
    have h1m : (1 : ℚ) ∈ (det1Loop env (fun _ => true) (sortFiles files).length 0 outInit
        (sortFiles files)).calls := h1mem
    rw [j1, List.mem_map] at h1m
    obtain ⟨k, hk, hkeq⟩ := h1m
    have ht0 : (((sortFiles files).length : ℕ) : ℚ) ≠ 0 := by
      intro h0
      rw [h0, div_zero] at hkeq
      exact zero_ne_one hkeq
    have hkeq2 : (k : ℚ) + 1 = (((sortFiles files).length : ℕ) : ℚ) := by
      rwa [div_eq_one_iff_eq ht0] at hkeq
    have hk1 : k + 1 = (sortFiles files).length := by exact_mod_cast hkeq2
    obtain ⟨v, hv⟩ := mem_zip_left idxs1 _ j2 k hk
    have hgot := j5 (k, v) hv
    rw [Nat.sub_zero] at hgot
    refine ⟨v, ?_, (List.of_mem_zip hv).2⟩
    rw [show (sortFiles files).length - 1 = k from by omega]
    exact hgot

/-- Witness for C2 (amended) at a concrete run. -/
theorem c2_progress_amended_witness :
    (detect_medical_pages_2 (simpleEnv "x") (fun _ => true)
      [⟨"page_1.png", [7]⟩, ⟨"page_2.png", [7]⟩] []).calls.length =
    (detect_medical_pages_2 (simpleEnv "x") (fun _ => true)
      [⟨"page_1.png", [7]⟩, ⟨"page_2.png", [7]⟩] []).visited.length :=
  (c2_progress_amended (simpleEnv "x") [⟨"page_1.png", [7]⟩, ⟨"page_2.png", [7]⟩] []).1

/-- Counterexample to C2 as stated: a duplicate page contributes no callback
invocation.  A two-file listing with byte-identical files yields exactly one
callback invocation, not one per file, so progress never reaches 1. -/
theorem c2_counterexample :
    (sortFiles [⟨"page_1.png", [7]⟩, ⟨"page_2.png", [7]⟩]).length = 2 ∧
    (detect_medical_pages_2 (simpleEnv "x") (fun _ => true)
      [⟨"page_1.png", [7]⟩, ⟨"page_2.png", [7]⟩] []).calls.length = 1 ∧
    ¬((detect_medical_pages_2 (simpleEnv "x") (fun _ => true)
      [⟨"page_1.png", [7]⟩, ⟨"page_2.png", [7]⟩] []).calls.length =
      (sortFiles [⟨"page_1.png", [7]⟩, ⟨"page_2.png", [7]⟩]).length) := by
  decide

/-- Claim C3 (amended): the structured pipeline starts from a cleared output
directory — every file present at the end was copied during the run — while
the unstructured pipeline keeps the pre-existing contents of the output
directory. -/
theorem c3_clearing_amended {Img : Type} (env : Env Img) (cb : ℚ → Bool)
    (files : List PageFile) (outInit : List String) :
    (∀ x ∈ (detect_medical_pages_2 env cb files outInit).outFiles,
      x ∈ (detect_medical_pages_2 env cb files outInit).copies) ∧
    (∀ x ∈ outInit, x ∈ (detect_medical_pages_1 env cb files outInit).outFiles) := by
  obtain ⟨-, -, -, -, -, -, -, -, s9, -⟩ :=
    det2Loop_spec env cb (sortFiles files).length (sortFiles files) 0 [] [] (by simp)
  obtain ⟨-, -, -, -, -, -, -, t8⟩ :=
    det1Loop_spec env cb (sortFiles files).length (sortFiles files) 0 outInit (by simp)
  refine ⟨?_, t8⟩
  intro x hx
  rcases s9 x hx with h | h
  · simp at h
  · exact h

/-- Witness for C3 (amended): a concrete pre-existing file survives an
unstructured run, and a structured run's final directory only holds copies. -/
theorem c3_clearing_amended_witness :
    "old.png" ∈ (detect_medical_pages_1 (simpleEnv "x") (fun _ => true)
      [⟨"page_1.png", [7]⟩] ["old.png"]).outFiles :=
  (c3_clearing_amended (simpleEnv "x") (fun _ => true) [⟨"page_1.png", [7]⟩] ["old.png"]).2
    "old.png" (by decide)

/-- Counterexample to C3 as stated: `detect_medical_pages_1` never clears the
output directory; a pre-existing `treatment_plan.png` survives the run and
even diverts the new copy to the `_1`-suffixed name. -/
theorem c3_counterexample :
    (detect_medical_pages_1 (simpleEnv "plan of care") (fun _ => true)
      [⟨"p.png", [7]⟩] ["treatment_plan.png"]).outFiles =
      ["treatment_plan.png", "treatment_plan_1.png"] := by
  decide

/-- Claim C9 (amended): an exception raised by the progress callback *aborts*
the run: the `found` list is returned (and equals the copies made) exactly
when no invocation fails, and the run's return value is lost precisely when
some invocation failed. -/
theorem c9_callback_amended {Img : Type} (env : Env Img) (cb : ℚ → Bool)
    (files : List PageFile) (outInit : List String) :
    ((∀ r, cb r = true) →
      (detect_medical_pages_2 env cb files outInit).found =
        some (detect_medical_pages_2 env cb files outInit).copies ∧
      (detect_medical_pages_1 env cb files outInit).found =
        some (detect_medical_pages_1 env cb files outInit).copies) ∧
    ((detect_medical_pages_2 env cb files outInit).found = none ↔
      ∃ r ∈ (detect_medical_pages_2 env cb files outInit).calls, cb r = false) ∧
    ((detect_medical_pages_1 env cb files outInit).found = none ↔
      ∃ r ∈ (detect_medical_pages_1 env cb files outInit).calls, cb r = false) := by
  obtain ⟨-, -, -, -, s5, s6, -, -, -, -⟩ :=
    det2Loop_spec env cb (sortFiles files).length (sortFiles files) 0 [] [] (by simp)
  obtain ⟨-, -, t3, t4, -, -, -, -⟩ :=
    det1Loop_spec env cb (sortFiles files).length (sortFiles files) 0 outInit (by simp)
  exact ⟨fun hall => ⟨(s5 hall).1, (t3 hall).1⟩, s6, t4⟩

/-- Witness for C9 (amended) at a concrete run with a callback that never
fails. -/
theorem c9_callback_amended_witness :
    (detect_medical_pages_2 (simpleEnv "x") (fun _ => true)
      [⟨"page_1.png", [7]⟩] []).found =
    some (detect_medical_pages_2 (simpleEnv "x") (fun _ => true)
      [⟨"page_1.png", [7]⟩] []).copies :=
  ((c9_callback_amended (simpleEnv "x") (fun _ => true) [⟨"page_1.png", [7]⟩] []).1
    (fun _ => rfl)).1

/-- Counterexample to C9 as stated: a callback that raises on its first
invocation aborts the structured run — the second page is never processed and
no `found` list is returned. -/
theorem c9_counterexample :
    (sortFiles [⟨"page_1.png", [1]⟩, ⟨"page_2.png", [2]⟩]).length = 2 ∧
    (detect_medical_pages_2 (simpleEnv "x") (fun _ => false)
      [⟨"page_1.png", [1]⟩, ⟨"page_2.png", [2]⟩] []).found.isNone = true ∧
    (detect_medical_pages_2 (simpleEnv "x") (fun _ => false)
      [⟨"page_1.png", [1]⟩, ⟨"page_2.png", [2]⟩] []).visited.length = 1 := by
  decide

/-- Claim C10: both pipelines visit pages in lexicographic filename order
(`sorted`), so `page_10.png` is processed before `page_2.png`; and the
document-type decision uses the first decodable page of the first three in
lexicographic order — with `page_1.png` undecodable, the decision image is
`page_10.png`'s, whose "scanned" verdict routes the run to the unstructured
pipeline (observable through the surviving pre-existing output file). -/
theorem c10_lexicographic_order :
    (∀ (Img : Type) (env : Env Img) (cb : ℚ → Bool) (files : List PageFile)
      (outInit : List String),
      (detect_medical_pages_2 env cb files outInit).visited.Pairwise
        (fun f g => nameLe f g = true) ∧
      (detect_medical_pages_1 env cb files outInit).visited.Pairwise
        (fun f g => nameLe f g = true)) ∧
    ((sortFiles files10).map PageFile.name =
      ["page_1.png", "page_10.png", "page_2.png", "page_3.png", "page_4.png", "page_5.png",
       "page_6.png", "page_7.png", "page_8.png", "page_9.png"]) ∧
    ((detect_medical_pages_2 (simpleEnv "x") (fun _ => true) files10 []).visited.map
      PageFile.name =
      ["page_1.png", "page_10.png", "page_2.png", "page_3.png", "page_4.png", "page_5.png",
       "page_6.png", "page_7.png", "page_8.png", "page_9.png"]) ∧
    ((detect_medical_pages listEnv (fun _ => true) files10 ["old.png"]).outFiles =
      ["old.png"]) := by
  refine ⟨?_, by decide, by decide, by decide⟩
  intro Img env cb files outInit
  obtain ⟨s1, -, -, -, -, -, -, -, -, -⟩ :=
    det2Loop_spec env cb (sortFiles files).length (sortFiles files) 0 [] [] (by simp)
  obtain ⟨t1, -, -, -, -, -, -, -⟩ :=
    det1Loop_spec env cb (sortFiles files).length (sortFiles files) 0 outInit (by simp)
  exact ⟨(sortFiles_pairwise files).sublist s1, (sortFiles_pairwise files).sublist t1⟩
